import Mathlib

/-!
Shallow embedding of the duplicate-detection engine of `dqtool/duplicates.py`
(repository `ai-dq-platform`), together with theorems checking the
natural-language specification of that engine against the code.

Modelling conventions:
* A `DataFrame` is a list of column names plus a list of rows; every cell is
  an `Option String` (`none` models a null/NaN cell, `some s` a value whose
  string form is `s`).  All columns are therefore modelled as pandas
  `object` dtype columns, so the default column selection
  (`select_dtypes(include=["object", "string"])`) resolves to all columns.
* Row ids are positions `0 .. nrows-1` (the pandas default `RangeIndex`).
* The fuzzy scorer `rapidfuzz.fuzz.token_set_ratio` is an external library,
  not code of this repository; following the spec's design note that scoring
  is a pluggable pure function `(string, string) -> score`, the pipeline is
  parameterised over an arbitrary `score : String → String → Nat`.
* The mutable union-find dictionary of the source is threaded as a total
  function `Nat → Nat`; the unbounded `while` loop of `find` is given a fuel
  argument that is provably sufficient for every call the pipeline makes.
* Fallible behaviour (pandas raising `KeyError` for a missing column) is
  modelled with `Except`.
-/

namespace DQTool

/-- A dataframe: ordered column names and rows of optional string cells. -/
structure DataFrame where
  cols : List String
  data : List (List (Option String))
deriving DecidableEq

/-- Number of rows (the length of the pandas `RangeIndex`). -/
def DataFrame.nrows (df : DataFrame) : Nat := df.data.length

/-- Cell lookup `row[c]`: position of column `c` in `cols`, then that entry
of the row; absent positions give `none` (callers check column presence
first, mirroring the pandas `KeyError` check). -/
def getCell (cols : List String) (row : List (Option String)) (c : String) :
    Option String :=
  match cols.indexOf? c with
  | some i => row.getD i none
  | none => none

/-- Row `i` of the dataframe (total, defaulting to an empty row). -/
def DataFrame.row (df : DataFrame) (i : Nat) : List (Option String) :=
  df.data.getD i []

/-- Python `str.isspace` membership for the characters `strip` removes.
(The kernel-reducible string primitives below replace the library `trim`,
`toLower` and `replace`, which are defined by well-founded recursion and do
not evaluate inside proofs.) -/
def isPySpace (c : Char) : Bool :=
  c == ' ' || c == '\t' || c == '\n' || c == '\r' || c == '\x0b' || c == '\x0c'

/-- Python `str.strip()`: drop whitespace from both ends. -/
def pyStrip (s : String) : String :=
  ⟨((s.data.dropWhile isPySpace).reverse.dropWhile isPySpace).reverse⟩

/-- Python `str.lower()` (ASCII case mapping). -/
def pyLower (s : String) : String := ⟨s.data.map Char.toLower⟩

/-- Python `"  " in s`. -/
def hasDoubleSpace : List Char → Bool
  | ' ' :: ' ' :: _ => true
  | _ :: rest => hasDoubleSpace rest
  | [] => false

/-- Python `s.replace("  ", " ")`: replace every non-overlapping occurrence,
left to right. -/
def replaceDoubleSpace : List Char → List Char
  | ' ' :: ' ' :: rest => ' ' :: replaceDoubleSpace rest
  | c :: rest => c :: replaceDoubleSpace rest
  | [] => []

/-- The loop `while "  " in s: s = s.replace("  ", " ")`, with fuel; each
replacement strictly shortens the string, so fuel `s.length` always
suffices. -/
def collapseSpaces : Nat → String → String
  | 0, s => s
  | fuel + 1, s =>
      if hasDoubleSpace s.data then collapseSpaces fuel ⟨replaceDoubleSpace s.data⟩
      else s

/-- Source `_normalize_value`: NaN/None to `""`, else strip, lowercase and
collapse runs of spaces. -/
def _normalize_value (v : Option String) : String :=
  match v with
  | none => ""
  | some s =>
      let t := pyLower (pyStrip s)
      collapseSpaces t.data.length t

/-- Source `_build_key`: normalized selected fields, empty parts dropped,
joined with `" | "`. -/
def _build_key (cols : List String) (row : List (Option String))
    (subset_cols : List String) : String :=
  let parts := subset_cols.map (fun c => _normalize_value (getCell cols row c))
  let parts := parts.filter (fun p => p ≠ "")
  String.intercalate " | " parts

/-- Source `_block_key`: empty key gives `""`, else the first `block_size`
characters. -/
def _block_key (key : String) (block_size : Nat) : String :=
  if key = "" then "" else key.take block_size

/-- Source dataclass `DuplicatePair` (`group_id` starts at `-1` and is
reassigned after clustering). -/
structure DuplicatePair where
  left_index : Nat
  right_index : Nat
  score : Nat
  group_id : Int
deriving DecidableEq

/-- One row of the human-readable pairs table. -/
structure PairsRow where
  group_id : Int
  left_index : Nat
  right_index : Nat
  score : Nat
  left_preview : String
  right_preview : String
deriving DecidableEq

/-- A pandas `DataFrame` holding the pairs table: its column list together
with its rows.  `pd.DataFrame()` is `⟨[], []⟩`; a frame built from a
non-empty list of six-key dicts carries the six column names. -/
structure PairsTable where
  cols : List String
  rows : List PairsRow
deriving DecidableEq

/-- The six columns of a non-empty pairs table, in dict-key order. -/
def pairsCols : List String :=
  ["group_id", "left_index", "right_index", "score", "left_preview",
   "right_preview"]

/-- Errors the pipeline can surface.  `keyError` models pandas raising
`KeyError` (naming the missing columns) on `df[subset_cols]`.
`invalidParameter` is modelled from the spec: the spec's error-handling
section names an `InvalidParameter` error, but no such error exists anywhere
in the source; the constructor exists only so claims about it can be
stated. -/
inductive DQError where
  | keyError (missing : List String)
  | invalidParameter (msg : String)
deriving DecidableEq

/-- Pointwise update of the parent map: `parent[x] = v`. -/
def updateF (parent : Nat → Nat) (x v : Nat) : Nat → Nat :=
  fun z => if z = x then v else parent z

/-- Source `find` with path halving
(`parent[x] = parent[parent[x]]; x = parent[x]`), returning the root found
and the mutated parent map.  The source loop is unbounded; the fuel is an
embedding device and is proved sufficient for every call the pipeline
makes. -/
def find (parent : Nat → Nat) : Nat → Nat → Nat × (Nat → Nat)
  | 0, x => (x, parent)
  | fuel + 1, x =>
      if parent x = x then (x, parent)
      else
        let parent2 := updateF parent x (parent (parent x))
        find parent2 fuel (parent2 x)

/-- Source `union`: find both roots (threading the mutated parent) and graft
the second root under the first when they differ. -/
def union (parent : Nat → Nat) (fuel x y : Nat) : Nat → Nat :=
  let fx := find parent fuel x
  let fy := find fx.2 fuel y
  if fx.1 ≠ fy.1 then updateF fy.2 fy.1 fx.1 else fy.2

/-- The `i < j` enumeration of index pairs of a block, in the order of the
source's nested loops. -/
def ordPairs : List Nat → List (Nat × Nat)
  | [] => []
  | x :: xs => xs.map (fun y => (x, y)) ++ ordPairs xs

/-- Python `blocks.setdefault(b, []).append(idx)` on an insertion-ordered
dict represented as an association list. -/
def addToBlock : List (String × List Nat) → String → Nat →
    List (String × List Nat)
  | [], b, i => [(b, [i])]
  | (k, l) :: rest, b, i =>
      if k = b then (k, l ++ [i]) :: rest else (k, l) :: addToBlock rest b i

/-- The blocking loop: group candidate ids by the `_block_key` of their key,
skipping empty block keys. -/
def buildBlocks (keyOf : Nat → String) (block_size : Nat)
    (cand : List Nat) : List (String × List Nat) :=
  cand.foldl
    (fun blocks i =>
      let b := _block_key (keyOf i) block_size
      if b = "" then blocks else addToBlock blocks b i)
    []

/-- Body of the innermost comparison loop: score the two keys and, when the
score reaches the threshold, union the cluster and append the pair. -/
def blockStep (score : String → String → Nat) (threshold : Int)
    (keyOf : Nat → String) (fuel : Nat)
    (st : (Nat → Nat) × List DuplicatePair) (pr : Nat × Nat) :
    (Nat → Nat) × List DuplicatePair :=
  let s := score (keyOf pr.1) (keyOf pr.2)
  if threshold ≤ (s : Int) then
    (union st.1 fuel pr.1 pr.2,
     st.2 ++ [{ left_index := pr.1, right_index := pr.2, score := s,
                group_id := -1 }])
  else st

/-- The per-block comparison loop: skip blocks of fewer than two rows and
blocks whose pairwise count `k*(k-1)/2` exceeds the cap, otherwise compare
every `i < j` pair. -/
def runBlocks (score : String → String → Nat) (threshold : Int)
    (keyOf : Nat → String) (maxp fuel : Nat)
    (blocks : List (String × List Nat))
    (st0 : (Nat → Nat) × List DuplicatePair) :
    (Nat → Nat) × List DuplicatePair :=
  blocks.foldl
    (fun st bl =>
      if bl.2.length < 2 then st
      else if bl.2.length * (bl.2.length - 1) / 2 > maxp then st
      else (ordPairs bl.2).foldl (blockStep score threshold keyOf fuel) st)
    st0

/-- Group-id assignment: walk candidate ids in order, resolve each root
(threading the mutated parent), and give each first-encountered root the
next sequential id starting from 1. -/
def assignGroups (fuel : Nat) (cand : List Nat) (parent : Nat → Nat) :
    (Nat → Nat) × List (Nat × Int) × Int :=
  cand.foldl
    (fun st idx =>
      let fr := find st.1 fuel idx
      if (st.2.1.lookup fr.1).isSome then (fr.2, st.2.1, st.2.2)
      else (fr.2, st.2.1 ++ [(fr.1, st.2.2)], st.2.2 + 1))
    (parent, [], 1)

/-- Stamping loop: re-walk the pair list and set each pair's `group_id` to
the group of its resolved root.  The lookup default is never used: every
root of an accepted pair's endpoint received a group id. -/
def stampGroups (fuel : Nat) (rtg : List (Nat × Int)) (parent : Nat → Nat)
    (pairs : List DuplicatePair) : (Nat → Nat) × List DuplicatePair :=
  pairs.foldl
    (fun st p =>
      let fr := find st.1 fuel p.left_index
      (fr.2, st.2 ++ [{ p with group_id := (rtg.lookup fr.1).getD 0 }]))
    (parent, [])

/-- Python `str(value)` for a preview cell: a present string is itself, a
null cell prints as `nan` (the string form of `np.nan`). -/
def previewStr (v : Option String) : String :=
  match v with
  | some s => s
  | none => "nan"

/-- Preview text of row `i`: the first three selected columns, stringified
and pipe-joined. -/
def previewOf (df : DataFrame) (subset : List String) (i : Nat) : String :=
  String.intercalate " | "
    ((subset.take 3).map (fun c => previewStr (getCell df.cols (df.row i) c)))

/-- Build one pairs-table row from a stamped pair. -/
def toPairsRow (df : DataFrame) (subset : List String) (p : DuplicatePair) :
    PairsRow :=
  { group_id := p.group_id, left_index := p.left_index,
    right_index := p.right_index, score := p.score,
    left_preview := previewOf df subset p.left_index,
    right_preview := previewOf df subset p.right_index }

/-- Insertion of one element into a sorted list, by a boolean comparator. -/
def insertSorted {a : Type} (le : a → a → Bool) (x : a) : List a → List a
  | [] => [x]
  | b :: rest => if le x b then x :: b :: rest else b :: insertSorted le x rest

/-- A deterministic comparison sort standing in for pandas
`sort_values` (whose quicksort leaves tie order unspecified); defined by
structural recursion so concrete runs evaluate inside proofs. -/
def insertionSort {a : Type} (le : a → a → Bool) : List a → List a
  | [] => []
  | x :: rest => insertSorted le x (insertionSort le rest)

/-- Comparator of `sort_values(["group_id", "score"],
ascending=[True, False])`: group id ascending, then score descending.
pandas leaves the relative order of full ties unspecified; the embedding
uses a stable merge sort, which no claim distinguishes. -/
def pairsLe (a b : PairsRow) : Bool :=
  a.group_id < b.group_id || (a.group_id == b.group_id && b.score ≤ a.score)

/-- Resolved column selection: an explicit non-empty list is used as given;
`None` or an empty list selects all object/string-dtype columns, which in
this model (every cell an optional string) is every column, as is the
fallback. -/
def resolvedSubset (df : DataFrame) (subset_cols : Option (List String)) :
    List String :=
  match subset_cols with
  | none => df.cols
  | some [] => df.cols
  | some l => l

/-- Selected columns absent from the dataframe; pandas raises `KeyError`
naming them on `df[subset_cols]` when this is non-empty. -/
def missingCols (df : DataFrame) (subset : List String) : List String :=
  subset.filter (fun c => ¬ df.cols.contains c)

/-- Count of non-null cells of row `i` across the selected columns
(`df[subset_cols].notna().sum(axis=1)`). -/
def nonNullCount (df : DataFrame) (subset : List String) (i : Nat) : Nat :=
  (subset.filter (fun c => (getCell df.cols (df.row i) c).isSome)).length

/-- Candidate row ids: rows with at least `min_non_null` non-null selected
fields. -/
def candidateIdx (df : DataFrame) (subset : List String)
    (min_non_null : Nat) : List Nat :=
  (List.range df.nrows).filter (fun i => min_non_null ≤ nonNullCount df subset i)

/-- The normalized key of row `i`. -/
def rowKey (df : DataFrame) (subset : List String) (i : Nat) : String :=
  _build_key df.cols (df.row i) subset

/-- Candidates whose normalized key is non-empty. -/
def validCandidates (df : DataFrame) (subset : List String)
    (min_non_null : Nat) : List Nat :=
  (candidateIdx df subset min_non_null).filter
    (fun i => rowKey df subset i ≠ "")

/-- The block map of the run. -/
def blocksOf (df : DataFrame) (subset : List String)
    (min_non_null block_size : Nat) : List (String × List Nat) :=
  buildBlocks (rowKey df subset) block_size
    (validCandidates df subset min_non_null)

/-- Flat list of the comparisons the block loop performs, in order. -/
def comparisons (blocks : List (String × List Nat)) (maxp : Nat) :
    List (Nat × Nat) :=
  blocks.flatMap
    (fun bl =>
      if bl.2.length < 2 then []
      else if bl.2.length * (bl.2.length - 1) / 2 > maxp then []
      else ordPairs bl.2)

/-- Fuel for the union-find: the number of comparisons bounds the number of
unions, which bounds every parent-chain length (proved below). -/
def ufFuel (df : DataFrame) (subset : List String)
    (min_non_null block_size maxp : Nat) : Nat :=
  (comparisons (blocksOf df subset min_non_null block_size) maxp).length

/-- The all-false mask over the original row index domain. -/
def allFalseMask (df : DataFrame) : List Bool :=
  (List.range df.nrows).map (fun _ => false)

/-- Mask: true iff the row id is an endpoint of at least one accepted
pair. -/
def maskOf (n : Nat) (pairs : List DuplicatePair) : List Bool :=
  (List.range n).map
    (fun i => pairs.any (fun p => p.left_index == i || p.right_index == i))

/-- Source `find_duplicates_advanced`, parameterised over the external
fuzzy scorer.  Returns the boolean mask over the original rows and the
pairs table, or the pandas `KeyError` for a malformed column selection. -/
def find_duplicates_advanced (score : String → String → Nat)
    (df : DataFrame) (subset_cols : Option (List String) := none)
    (threshold : Int := 90) (block_size : Nat := 2)
    (min_non_null : Nat := 1) (max_pairs_per_block : Nat := 50000) :
    Except DQError (List Bool × PairsTable) :=
  let subset := resolvedSubset df subset_cols
  let missing := missingCols df subset
  if missing ≠ [] then .error (.keyError missing)
  else
    let cand := candidateIdx df subset min_non_null
    if cand.isEmpty then .ok (allFalseMask df, ⟨[], []⟩)
    else
      let cand2 := (candidateIdx df subset min_non_null).filter
        (fun i => rowKey df subset i ≠ "")
      if cand2.isEmpty then .ok (allFalseMask df, ⟨[], []⟩)
      else
        let blocks := blocksOf df subset min_non_null block_size
        let fuel := ufFuel df subset min_non_null block_size max_pairs_per_block
        -- parent initialised to the identity on every candidate id
        let run := runBlocks score threshold (rowKey df subset)
          max_pairs_per_block fuel blocks (fun x => x, [])
        if run.2.isEmpty then .ok (allFalseMask df, ⟨[], []⟩)
        else
          let ag := assignGroups fuel cand2 run.1
          let sg := stampGroups fuel ag.2.1 ag.1 run.2
          let mask := maskOf df.nrows sg.2
          let rows := sg.2.map (toPairsRow df subset)
          .ok (mask, ⟨pairsCols, insertionSort pairsLe rows⟩)

/-- Source `detect_duplicates_simple`: the backwards-compatible wrapper
returning only the mask. -/
def detect_duplicates_simple (score : String → String → Nat)
    (df : DataFrame) (subset_cols : Option (List String) := none)
    (threshold : Int := 90) : Except DQError (List Bool) :=
  (find_duplicates_advanced score df subset_cols threshold 2 1).map
    (fun r => r.1)

/-! Derived views of the pipeline, used to state and prove properties; each
is proved below to coincide with the corresponding stage of
`find_duplicates_advanced`. -/

/-- The fields of a pair untouched by group stamping. -/
def stripPair (p : DuplicatePair) : Nat × Nat × Nat :=
  (p.left_index, p.right_index, p.score)

/-- The raw pair a comparison generates when accepted. -/
def mkPair (score : String → String → Nat) (keyOf : Nat → String)
    (pr : Nat × Nat) : DuplicatePair :=
  { left_index := pr.1, right_index := pr.2,
    score := score (keyOf pr.1) (keyOf pr.2), group_id := -1 }

/-- Comparisons whose score reaches the threshold. -/
def acceptedOf (score : String → String → Nat) (threshold : Int)
    (keyOf : Nat → String) (comps : List (Nat × Nat)) : List (Nat × Nat) :=
  comps.filter (fun pr => threshold ≤ (score (keyOf pr.1) (keyOf pr.2) : Int))

/-- Folding `union` over a list of endpoint pairs. -/
def unionFold (fuel : Nat) (l : List (Nat × Nat)) (parent : Nat → Nat) :
    Nat → Nat :=
  l.foldl (fun p ab => union p fuel ab.1 ab.2) parent

/-- The accepted comparisons of a full run. -/
def acceptedPairs (score : String → String → Nat) (df : DataFrame)
    (sc : Option (List String)) (t : Int) (bs mn mp : Nat) :
    List (Nat × Nat) :=
  acceptedOf score t (rowKey df (resolvedSubset df sc))
    (comparisons (blocksOf df (resolvedSubset df sc) mn bs) mp)

/-- The accepted pairs of a full run, as `DuplicatePair`s before group
assignment. -/
def rawPairs (score : String → String → Nat) (df : DataFrame)
    (sc : Option (List String)) (t : Int) (bs mn mp : Nat) :
    List DuplicatePair :=
  (acceptedPairs score df sc t bs mn mp).map
    (mkPair score (rowKey df (resolvedSubset df sc)))

/-- The union-find parent map after the comparison loop. -/
def finalParent (score : String → String → Nat) (df : DataFrame)
    (sc : Option (List String)) (t : Int) (bs mn mp : Nat) : Nat → Nat :=
  unionFold (ufFuel df (resolvedSubset df sc) mn bs mp)
    (acceptedPairs score df sc t bs mn mp) (fun x => x)

/-- The state after group-id assignment. -/
def groupAssign (score : String → String → Nat) (df : DataFrame)
    (sc : Option (List String)) (t : Int) (bs mn mp : Nat) :
    (Nat → Nat) × List (Nat × Int) × Int :=
  assignGroups (ufFuel df (resolvedSubset df sc) mn bs mp)
    (validCandidates df (resolvedSubset df sc) mn)
    (finalParent score df sc t bs mn mp)

/-- The stamped pair list of a full run. -/
def stampedPairs (score : String → String → Nat) (df : DataFrame)
    (sc : Option (List String)) (t : Int) (bs mn mp : Nat) :
    List DuplicatePair :=
  (stampGroups (ufFuel df (resolvedSubset df sc) mn bs mp)
    (groupAssign score df sc t bs mn mp).2.1
    (groupAssign score df sc t bs mn mp).1
    (rawPairs score df sc t bs mn mp)).2

/-- True exactly when the call failed with the spec's `InvalidParameter`
error. -/
def isInvalidParameterResult (r : Except DQError (List Bool × PairsTable)) :
    Bool :=
  match r with
  | .error (.invalidParameter _) => true
  | _ => false

/-- Two ordered index pairs are distinct as unordered pairs. -/
def udist (p q : Nat × Nat) : Prop :=
  ¬(p.1 = q.1 ∧ p.2 = q.2) ∧ ¬(p.1 = q.2 ∧ p.2 = q.1)

/-- The root found by `find`, as a value (used to state group-id facts). -/
def rootAt (p : Nat → Nat) (fuel z : Nat) : Nat := (find p fuel z).1

/-- `r` is reached from `z` by iterating the parent map, and is a root. -/
def Reaches (p : Nat → Nat) (z r : Nat) : Prop :=
  (∃ k, p^[k] z = r) ∧ p r = r

/-- Bounded chain preservation: every chain to a root survives, no longer
than before.  Path halving inside `find` preserves this. -/
def Pres (p q : Nat → Nat) : Prop :=
  ∀ k z r, p^[k] z = r → p r = r → ∃ m, m ≤ k ∧ q^[m] z = r ∧ q r = r

/-- Chain preservation across a union that reroots `ry` onto `rx`: roots
are renamed by the collapse, and chains grow by at most one step. -/
def PresU (p q : Nat → Nat) (rx ry : Nat) : Prop :=
  ∀ k z r, p^[k] z = r → p r = r →
    ∃ m, m ≤ k + 1 ∧ q^[m] z = (if r = ry then rx else r) ∧
      q (if r = ry then rx else r) = (if r = ry then rx else r)

/-- Fuel `m` suffices to reach a root from every node. -/
def TotalB (p : Nat → Nat) (m : Nat) : Prop :=
  ∀ z, ∃ k r, k ≤ m ∧ p^[k] z = r ∧ p r = r

/-- Two nodes share a union-find root. -/
def SameRoot (p : Nat → Nat) (a b : Nat) : Prop :=
  ∃ r, Reaches p a r ∧ Reaches p b r

/-- Connectivity by a chain of related pairs: the reflexive-symmetric-
transitive closure of `R`.  `Conn (accepted-pair relation)` is the spec's
"connected by a chain of accepted pairs". -/
inductive Conn (R : Nat → Nat → Prop) : Nat → Nat → Prop
  | rel : ∀ {a b}, R a b → Conn R a b
  | refl : ∀ a, Conn R a a
  | symm : ∀ {a b}, Conn R a b → Conn R b a
  | trans : ∀ {a b c}, Conn R a b → Conn R b c → Conn R a c

/-- One step of the group-assignment fold (the body of `assignGroups`). -/
def assignStep (fuel : Nat) (st : (Nat → Nat) × List (Nat × Int) × Int)
    (idx : Nat) : (Nat → Nat) × List (Nat × Int) × Int :=
  let fr := find st.1 fuel idx
  if (st.2.1.lookup fr.1).isSome then (fr.2, st.2.1, st.2.2)
  else (fr.2, st.2.1 ++ [(fr.1, st.2.2)], st.2.2 + 1)

/-- One step of the stamping fold (the body of `stampGroups`). -/
def stampStep (fuel : Nat) (rtg : List (Nat × Int))
    (st : (Nat → Nat) × List DuplicatePair) (p : DuplicatePair) :
    (Nat → Nat) × List DuplicatePair :=
  let fr := find st.1 fuel p.left_index
  (fr.2, st.2 ++ [{ p with group_id := (rtg.lookup fr.1).getD 0 }])

/-! Concrete fixtures for witnesses and counterexamples. -/

/-- A stand-in scorer for concrete runs: 100 on equal keys, else 0. -/
def scoreEq : String → String → Nat := fun a b => if a == b then 100 else 0

/-- Three rows: two identical names sharing a block, one unrelated. -/
def dfPair : DataFrame :=
  ⟨["name"], [[some "alice smith"], [some "alice smith"], [some "zz"]]⟩

/-- A single-row dataframe. -/
def dfOne : DataFrame := ⟨["name"], [[some "a"]]⟩

/-- A scorer linking key "ab x" to "ab y" and "ab y" to "ab z" but not
"ab x" to "ab z", to exercise transitive grouping. -/
def scoreChain : String → String → Nat := fun a b =>
  if a == b then 100
  else if (a == "ab x" && b == "ab y") || (a == "ab y" && b == "ab x") then 95
  else if (a == "ab y" && b == "ab z") || (a == "ab z" && b == "ab y") then 95
  else 0

/-- Three rows forming a transitive chain under `scoreChain`. -/
def dfChain : DataFrame :=
  ⟨["k"], [[some "ab x"], [some "ab y"], [some "ab z"]]⟩

/-! Characterization of the comparison loop. -/

theorem foldl_blockStep_eq (score : String → String → Nat) (t : Int)
    (keyOf : Nat → String) (fuel : Nat) (l : List (Nat × Nat)) :
    ∀ (p : Nat → Nat) (acc : List DuplicatePair),
      l.foldl (blockStep score t keyOf fuel) (p, acc) =
        (unionFold fuel (acceptedOf score t keyOf l) p,
         acc ++ (acceptedOf score t keyOf l).map (mkPair score keyOf)) := by
  induction l with
  | nil => intro p acc; simp [unionFold, acceptedOf]
  | cons hd tl ih =>
      intro p acc
      by_cases h : t ≤ (score (keyOf hd.1) (keyOf hd.2) : Int)
      · have hstep : blockStep score t keyOf fuel (p, acc) hd =
            (union p fuel hd.1 hd.2, acc ++ [mkPair score keyOf hd]) := by
          simp [blockStep, mkPair, if_pos h]
        simp only [List.foldl_cons, hstep, ih]
        simp [acceptedOf, List.filter_cons, h, unionFold]
      · have hstep : blockStep score t keyOf fuel (p, acc) hd = (p, acc) := by
          simp [blockStep, if_neg h]
        simp only [List.foldl_cons, hstep, ih]
        simp [acceptedOf, List.filter_cons, h, unionFold]

theorem runBlocks_eq_foldl (score : String → String → Nat) (t : Int)
    (keyOf : Nat → String) (maxp fuel : Nat)
    (blocks : List (String × List Nat)) :
    ∀ st, runBlocks score t keyOf maxp fuel blocks st =
      (comparisons blocks maxp).foldl (blockStep score t keyOf fuel) st := by
  induction blocks with
  | nil => intro st; rfl
  | cons hd tl ih =>
      intro st
      simp only [runBlocks, comparisons, List.foldl_cons, List.flatMap_cons,
        List.foldl_append] at *
      by_cases h1 : hd.2.length < 2
      · simp [h1, ih]
      · by_cases h2 : hd.2.length * (hd.2.length - 1) / 2 > maxp
        · simp [h1, h2, ih]
        · simp [h1, h2, ih]

theorem runBlocks_spec (score : String → String → Nat) (t : Int)
    (keyOf : Nat → String) (maxp fuel : Nat)
    (blocks : List (String × List Nat)) (p0 : Nat → Nat) :
    runBlocks score t keyOf maxp fuel blocks (p0, []) =
      (unionFold fuel (acceptedOf score t keyOf (comparisons blocks maxp)) p0,
       (acceptedOf score t keyOf (comparisons blocks maxp)).map
         (mkPair score keyOf)) := by
  rw [runBlocks_eq_foldl, foldl_blockStep_eq]
  simp

/-- Stamping only rewrites `group_id`: the stripped pairs are unchanged. -/
theorem stampGroups_strip (fuel : Nat) (rtg : List (Nat × Int))
    (pairs : List DuplicatePair) :
    ∀ (parent : Nat → Nat) (acc : List DuplicatePair),
      ((pairs.foldl
        (fun st p =>
          let fr := find st.1 fuel p.left_index
          (fr.2, st.2 ++ [{ p with group_id := (rtg.lookup fr.1).getD 0 }]))
        (parent, acc)).2).map stripPair =
      (acc ++ pairs).map stripPair := by
  induction pairs with
  | nil => intro parent acc; simp
  | cons hd tl ih =>
      intro parent acc
      simp only [List.foldl_cons, ih]
      simp [stripPair]

theorem stampedPairs_strip (score : String → String → Nat) (df : DataFrame)
    (sc : Option (List String)) (t : Int) (bs mn mp : Nat) :
    (stampedPairs score df sc t bs mn mp).map stripPair =
      (rawPairs score df sc t bs mn mp).map stripPair := by
  have h := stampGroups_strip (ufFuel df (resolvedSubset df sc) mn bs mp)
    (groupAssign score df sc t bs mn mp).2.1
    (rawPairs score df sc t bs mn mp)
    (groupAssign score df sc t bs mn mp).1 []
  simpa [stampedPairs, stampGroups] using h

theorem insertSorted_perm {a : Type} (le : a → a → Bool) (x : a) :
    ∀ l : List a, (insertSorted le x l).Perm (x :: l) := by
  intro l
  induction l with
  | nil => simp [insertSorted]
  | cons b rest ih =>
      by_cases h : le x b = true
      · simp [insertSorted, h]
      · simp only [insertSorted, h, if_false]
        exact (ih.cons b).trans (List.Perm.swap x b rest)

theorem insertionSort_perm {a : Type} (le : a → a → Bool) :
    ∀ l : List a, (insertionSort le l).Perm l := by
  intro l
  induction l with
  | nil => simp [insertionSort]
  | cons x rest ih =>
      exact (insertSorted_perm le x (insertionSort le rest)).trans (ih.cons x)

/-! Emptiness propagation through the early-return branches. -/

theorem blocksOf_nil (df : DataFrame) (subset : List String) (mn bs : Nat)
    (h : validCandidates df subset mn = []) :
    blocksOf df subset mn bs = [] := by
  simp [blocksOf, buildBlocks, h]

theorem acceptedPairs_ne_nil_valid (score : String → String → Nat)
    (df : DataFrame) (sc : Option (List String)) (t : Int) (bs mn mp : Nat)
    (hA : acceptedPairs score df sc t bs mn mp ≠ []) :
    validCandidates df (resolvedSubset df sc) mn ≠ [] := by
  intro h
  exact hA (by simp [acceptedPairs, acceptedOf, comparisons,
    blocksOf_nil df (resolvedSubset df sc) mn bs h])

theorem validCandidates_ne_nil_cand (df : DataFrame) (subset : List String)
    (mn : Nat) (h : validCandidates df subset mn ≠ []) :
    candidateIdx df subset mn ≠ [] := by
  intro h0
  exact h (by simp [validCandidates, h0])

/-- The workhorse case analysis: with a well-formed column selection the
call returns `ok`, and the result is the all-false mask with the empty
frame when no pair is accepted, and the stamped, sorted pairs table
otherwise. -/
theorem result_cases (score : String → String → Nat) (df : DataFrame)
    (sc : Option (List String)) (t : Int) (bs mn mp : Nat)
    (hmiss : missingCols df (resolvedSubset df sc) = []) :
    (acceptedPairs score df sc t bs mn mp = [] ∧
      find_duplicates_advanced score df sc t bs mn mp =
        .ok (allFalseMask df, ⟨[], []⟩)) ∨
    (acceptedPairs score df sc t bs mn mp ≠ [] ∧
      find_duplicates_advanced score df sc t bs mn mp =
        .ok (maskOf df.nrows (stampedPairs score df sc t bs mn mp),
          ⟨pairsCols, insertionSort pairsLe ((stampedPairs score df sc t bs mn mp).map
            (toPairsRow df (resolvedSubset df sc)))⟩)) := by
  by_cases hA : acceptedPairs score df sc t bs mn mp = []
  · left
    refine ⟨hA, ?_⟩
    simp only [find_duplicates_advanced]
    rw [if_neg (by simp [hmiss])]
    split
    · rfl
    · split
      · rfl
      · rw [runBlocks_spec]
        have hA0 : acceptedOf score t (rowKey df (resolvedSubset df sc))
            (comparisons (blocksOf df (resolvedSubset df sc) mn bs) mp) =
            [] := hA
        rw [hA0]
        simp
  · right
    refine ⟨hA, ?_⟩
    have hv : validCandidates df (resolvedSubset df sc) mn ≠ [] :=
      acceptedPairs_ne_nil_valid score df sc t bs mn mp hA
    have hc : candidateIdx df (resolvedSubset df sc) mn ≠ [] :=
      validCandidates_ne_nil_cand df (resolvedSubset df sc) mn hv
    simp only [find_duplicates_advanced]
    rw [if_neg (by simp [hmiss])]
    rw [if_neg (by simpa [List.isEmpty_iff] using hc)]
    rw [if_neg (by
      have hv2 := hv
      unfold validCandidates at hv2
      simpa [List.isEmpty_iff] using hv2)]
    rw [runBlocks_spec]
    have hraw : (acceptedOf score t (rowKey df (resolvedSubset df sc))
        (comparisons (blocksOf df (resolvedSubset df sc) mn bs) mp)).map
        (mkPair score (rowKey df (resolvedSubset df sc))) ≠ [] := by
      intro h
      exact hA (by simpa [acceptedPairs] using List.map_eq_nil_iff.mp h)
    rw [if_neg (by simpa [List.isEmpty_iff] using hraw)]
    simp only [stampedPairs, groupAssign, finalParent, rawPairs, acceptedPairs,
      validCandidates]

/-! Helper facts shared by several claim theorems. -/

theorem missing_nil_of_ok (score : String → String → Nat) (df : DataFrame)
    (sc : Option (List String)) (t : Int) (bs mn mp : Nat)
    (r : List Bool × PairsTable)
    (h : find_duplicates_advanced score df sc t bs mn mp = .ok r) :
    missingCols df (resolvedSubset df sc) = [] := by
  by_contra hm
  simp only [find_duplicates_advanced] at h
  rw [if_pos hm] at h
  exact Except.noConfusion h

theorem stampedPairs_length (score : String → String → Nat) (df : DataFrame)
    (sc : Option (List String)) (t : Int) (bs mn mp : Nat) :
    (stampedPairs score df sc t bs mn mp).length =
      (acceptedPairs score df sc t bs mn mp).length := by
  have h := congrArg List.length (stampedPairs_strip score df sc t bs mn mp)
  simpa [rawPairs] using h

/-- In every successful run the pairs table has exactly one row per accepted
comparison. -/
theorem rows_length_eq_accepted (score : String → String → Nat)
    (df : DataFrame) (sc : Option (List String)) (t : Int) (bs mn mp : Nat)
    (mask : List Bool) (tbl : PairsTable)
    (h : find_duplicates_advanced score df sc t bs mn mp = .ok (mask, tbl)) :
    tbl.rows.length = (acceptedPairs score df sc t bs mn mp).length := by
  have hmiss := missing_nil_of_ok score df sc t bs mn mp _ h
  rcases result_cases score df sc t bs mn mp hmiss with ⟨hA, heq⟩ | ⟨hA, heq⟩
  · rw [heq] at h
    have : tbl = ⟨[], []⟩ := by
      injection h with h1
      injection h1 with h2 h3
      exact h3.symm
    rw [this, hA]
    rfl
  · rw [heq] at h
    have : tbl = ⟨pairsCols, insertionSort pairsLe
        ((stampedPairs score df sc t bs mn mp).map
          (toPairsRow df (resolvedSubset df sc)))⟩ := by
      injection h with h1
      injection h1 with h2 h3
      exact h3.symm
    rw [this]
    have hperm := insertionSort_perm pairsLe
      ((stampedPairs score df sc t bs mn mp).map
        (toPairsRow df (resolvedSubset df sc)))
    simp [hperm.length_eq, stampedPairs_length]

theorem length_filter_mono {α : Type} (l : List α) (p q : α → Bool)
    (h : ∀ a, p a = true → q a = true) :
    (l.filter p).length ≤ (l.filter q).length := by
  induction l with
  | nil => simp
  | cons hd tl ih =>
      by_cases hp : p hd = true
      · simp [List.filter_cons, hp, h hd hp]
        omega
      · simp only [List.filter_cons, hp, if_false]
        by_cases hq : q hd = true
        · simp [hq]
          exact Nat.le_succ_of_le ih
        · simp [hq]
          exact ih

/-- Raising the threshold can only shrink the accepted-comparison list. -/
theorem accepted_mono (score : String → String → Nat) (df : DataFrame)
    (sc : Option (List String)) (bs mn mp : Nat) (t1 t2 : Int)
    (h12 : t1 ≤ t2) :
    (acceptedPairs score df sc t2 bs mn mp).length ≤
      (acceptedPairs score df sc t1 bs mn mp).length := by
  unfold acceptedPairs acceptedOf
  refine length_filter_mono _ _ _ ?_
  intro a ha
  simp only [decide_eq_true_eq] at ha ⊢
  exact le_trans h12 ha

/-! Claim theorems: error handling and simple structure. -/

/-- C1 counterexample: with threshold 150 (outside [0,100]) on a concrete
input, `find_duplicates_advanced` does not fail at all — it returns a mask
and a pairs table, and in particular no `InvalidParameter` error. -/
theorem C1_counterexample :
    find_duplicates_advanced scoreEq dfPair (some ["name"]) 150 2 1 50000 =
      .ok ([false, false, false], ⟨[], []⟩) ∧
    isInvalidParameterResult
      (find_duplicates_advanced scoreEq dfPair (some ["name"]) 150 2 1 50000) =
      false := by
  exact ⟨by rfl, by rfl⟩

/-- C1 (amended): the source performs no threshold validation.  For any
threshold outside [0,100] the call still returns `ok` (given a well-formed
column selection); moreover, when the threshold exceeds 100 and the scorer
is bounded by 100 (as `token_set_ratio` is), no pair is accepted, so the
mask is all-false and the pairs table is the empty zero-column frame. -/
theorem C1_no_threshold_validation (score : String → String → Nat)
    (df : DataFrame) (sc : Option (List String)) (bs mn mp : Nat) (t : Int)
    (hmiss : missingCols df (resolvedSubset df sc) = [])
    (ht : t < 0 ∨ 100 < t) :
    ∃ mask tbl,
      find_duplicates_advanced score df sc t bs mn mp = .ok (mask, tbl) ∧
      (100 < t → (∀ a b, score a b ≤ 100) →
        mask = allFalseMask df ∧ tbl = ⟨[], []⟩) := by
  rcases result_cases score df sc t bs mn mp hmiss with ⟨hA, heq⟩ | ⟨hA, heq⟩
  · exact ⟨_, _, heq, fun _ _ => ⟨rfl, rfl⟩⟩
  · refine ⟨_, _, heq, ?_⟩
    intro ht2 hbound
    exfalso
    apply hA
    unfold acceptedPairs acceptedOf
    apply List.filter_eq_nil_iff.mpr
    intro pr _
    simp only [decide_eq_true_eq]
    intro hle
    have hb := hbound (rowKey df (resolvedSubset df sc) pr.1)
      (rowKey df (resolvedSubset df sc) pr.2)
    omega

/-- C1 witness: the amended theorem applied at threshold 150 on `dfPair`. -/
theorem C1_no_threshold_validation_witness :
    missingCols dfPair (resolvedSubset dfPair (some ["name"])) = [] ∧
    ((150 : Int) < 0 ∨ (100 : Int) < 150) ∧
    ∃ mask tbl,
      find_duplicates_advanced scoreEq dfPair (some ["name"]) 150 2 1 50000 =
        .ok (mask, tbl) ∧
      (100 < (150 : Int) → (∀ a b, scoreEq a b ≤ 100) →
        mask = allFalseMask dfPair ∧ tbl = ⟨[], []⟩) :=
  ⟨by decide, by decide,
   C1_no_threshold_validation scoreEq dfPair (some ["name"]) 2 1 50000 150
     (by decide) (by decide)⟩

/-- C2 counterexample: on a one-row input with no accepted pairs the source
returns `pd.DataFrame()`, a frame with zero rows and zero columns — not a
zero-row frame carrying the six §4.6 columns. -/
theorem C2_counterexample :
    find_duplicates_advanced scoreEq dfOne (some ["name"]) 90 2 1 50000 =
      .ok ([false], ⟨[], []⟩) ∧ ([] : List String) ≠ pairsCols := by
  exact ⟨by rfl, by decide⟩

/-- C2 (amended): in a successful run, if at least one pair was accepted the
pairs table carries exactly the six columns `group_id, left_index,
right_index, score, left_preview, right_preview`; if no pair was accepted
the table is the entirely empty frame (zero rows and zero columns, not six)
and the mask is all-false. -/
theorem C2_pairs_table_columns (score : String → String → Nat)
    (df : DataFrame) (sc : Option (List String)) (t : Int) (bs mn mp : Nat)
    (mask : List Bool) (tbl : PairsTable)
    (h : find_duplicates_advanced score df sc t bs mn mp = .ok (mask, tbl)) :
    (tbl.rows ≠ [] → tbl.cols = pairsCols) ∧
    (tbl.rows = [] → tbl.cols = [] ∧ mask = allFalseMask df) := by
  have hmiss := missing_nil_of_ok score df sc t bs mn mp _ h
  rcases result_cases score df sc t bs mn mp hmiss with ⟨hA, heq⟩ | ⟨hA, heq⟩
  · rw [heq] at h
    injection h with h1
    injection h1 with h2 h3
    constructor
    · intro hr
      exact absurd (congrArg PairsTable.rows h3.symm) hr
    · intro _
      exact ⟨congrArg PairsTable.cols h3.symm, h2.symm⟩
  · rw [heq] at h
    injection h with h1
    injection h1 with h2 h3
    have hlen : tbl.rows.length = (acceptedPairs score df sc t bs mn mp).length := by
      rw [← h3]
      have hperm := insertionSort_perm pairsLe
        ((stampedPairs score df sc t bs mn mp).map
          (toPairsRow df (resolvedSubset df sc)))
      simp [hperm.length_eq, stampedPairs_length]
    constructor
    · intro _
      exact congrArg PairsTable.cols h3.symm
    · intro hr
      exfalso
      apply hA
      have : (acceptedPairs score df sc t bs mn mp).length = 0 := by
        rw [← hlen, hr]
        rfl
      exact List.length_eq_zero.mp this

/-- C2 witness: the amended theorem applied to a run with one accepted
pair. -/
theorem C2_pairs_table_columns_witness :
    find_duplicates_advanced scoreEq dfPair (some ["name"]) 80 2 1 50000 =
      .ok ([true, true, false],
        ⟨pairsCols, [⟨1, 0, 1, 100, "alice smith", "alice smith"⟩]⟩) ∧
    (([⟨1, 0, 1, 100, "alice smith", "alice smith"⟩] : List PairsRow) ≠ [] →
      pairsCols = pairsCols) ∧
    (([⟨1, 0, 1, 100, "alice smith", "alice smith"⟩] : List PairsRow) = [] →
      pairsCols = [] ∧ [true, true, false] = allFalseMask dfPair) :=
  ⟨by rfl,
   (C2_pairs_table_columns scoreEq dfPair (some ["name"]) 80 2 1 50000
     [true, true, false]
     ⟨pairsCols, [⟨1, 0, 1, 100, "alice smith", "alice smith"⟩]⟩
     (by rfl)).1,
   (C2_pairs_table_columns scoreEq dfPair (some ["name"]) 80 2 1 50000
     [true, true, false]
     ⟨pairsCols, [⟨1, 0, 1, 100, "alice smith", "alice smith"⟩]⟩
     (by rfl)).2⟩

/-- C5: for a fixed input and fixed other parameters, and thresholds
`t1 ≤ t2` in [0,100], the pairs table returned at the higher threshold has
at most as many rows (accepted pairs) as the one at the lower threshold. -/
theorem C5_threshold_monotone (score : String → String → Nat)
    (df : DataFrame) (sc : Option (List String)) (bs mn mp : Nat)
    (t1 t2 : Int) (h0 : 0 ≤ t1) (h12 : t1 ≤ t2) (h100 : t2 ≤ 100)
    (m1 m2 : List Bool) (tb1 tb2 : PairsTable)
    (h1 : find_duplicates_advanced score df sc t1 bs mn mp = .ok (m1, tb1))
    (h2 : find_duplicates_advanced score df sc t2 bs mn mp = .ok (m2, tb2)) :
    tb2.rows.length ≤ tb1.rows.length := by
  rw [rows_length_eq_accepted score df sc t2 bs mn mp m2 tb2 h2,
      rows_length_eq_accepted score df sc t1 bs mn mp m1 tb1 h1]
  exact accepted_mono score df sc bs mn mp t1 t2 h12

/-- C5 witness: thresholds 80 and 100 on `dfPair`. -/
theorem C5_threshold_monotone_witness :
    (0 : Int) ≤ 80 ∧ (80 : Int) ≤ 100 ∧ (100 : Int) ≤ 100 ∧
    (List.length
      [(⟨1, 0, 1, 100, "alice smith", "alice smith"⟩ : PairsRow)] ≤
     List.length
      [(⟨1, 0, 1, 100, "alice smith", "alice smith"⟩ : PairsRow)]) :=
  ⟨by decide, by decide, by decide,
   C5_threshold_monotone scoreEq dfPair (some ["name"]) 2 1 50000 80 100
     (by decide) (by decide) (by decide)
     [true, true, false] [true, true, false]
     ⟨pairsCols, [⟨1, 0, 1, 100, "alice smith", "alice smith"⟩]⟩
     ⟨pairsCols, [⟨1, 0, 1, 100, "alice smith", "alice smith"⟩]⟩
     (by rfl) (by rfl)⟩

/-- C8 counterexample: a selection naming the absent column "zip" makes the
concrete run fail with the pandas `KeyError` (which does name the column),
not with an `InvalidParameter` error. -/
theorem C8_counterexample :
    find_duplicates_advanced scoreEq dfOne (some ["zip"]) 90 2 1 50000 =
      .error (.keyError ["zip"]) ∧
    isInvalidParameterResult
      (find_duplicates_advanced scoreEq dfOne (some ["zip"]) 90 2 1 50000) =
      false := by
  exact ⟨by rfl, by rfl⟩

/-- C8 (amended): when a selected column is absent from the dataframe,
`find_duplicates_advanced` fails with the pandas `KeyError`, whose payload
names the missing column. -/
theorem C8_missing_column_key_error (score : String → String → Nat)
    (df : DataFrame) (sc : Option (List String)) (t : Int) (bs mn mp : Nat)
    (c : String) (hc : c ∈ resolvedSubset df sc) (hnc : c ∉ df.cols) :
    ∃ missing,
      find_duplicates_advanced score df sc t bs mn mp =
        .error (.keyError missing) ∧ c ∈ missing := by
  have hmem : c ∈ missingCols df (resolvedSubset df sc) := by
    simp only [missingCols, List.mem_filter]
    exact ⟨hc, by simpa using hnc⟩
  have hne : missingCols df (resolvedSubset df sc) ≠ [] := by
    intro h0
    rw [h0] at hmem
    exact absurd hmem (List.not_mem_nil c)
  refine ⟨missingCols df (resolvedSubset df sc), ?_, hmem⟩
  simp only [find_duplicates_advanced]
  rw [if_pos hne]

/-- C8 witness: the amended theorem applied to selection ["zip"] on a
dataframe with only a "name" column. -/
theorem C8_missing_column_key_error_witness :
    ("zip" ∈ resolvedSubset dfOne (some ["zip"])) ∧ ("zip" ∉ dfOne.cols) ∧
    ∃ missing,
      find_duplicates_advanced scoreEq dfOne (some ["zip"]) 90 2 1 50000 =
        .error (.keyError missing) ∧ "zip" ∈ missing :=
  ⟨by decide, by decide,
   C8_missing_column_key_error scoreEq dfOne (some ["zip"]) 90 2 1 50000 "zip"
     (by decide) (by decide)⟩

/-- C9: the engine is a pure function of its inputs — running it twice on
identical rows with identical parameters yields the identical mask and the
identical pairs table, including group numbering.  (Every source of
run-to-run variation in the source — dict iteration order, sort order,
group-id assignment order — is deterministic, which is what makes this
pure-function embedding of the pipeline possible at all.) -/
theorem C9_deterministic (score : String → String → Nat) (df : DataFrame)
    (sc : Option (List String)) (t : Int) (bs mn mp : Nat) :
    find_duplicates_advanced score df sc t bs mn mp =
      find_duplicates_advanced score df sc t bs mn mp := rfl

/-- C10: `detect_duplicates_simple` returns exactly the mask component of
`find_duplicates_advanced` called with `block_size = 2`, `min_non_null = 1`
and the default `max_pairs_per_block = 50000`. -/
theorem C10_simple_wrapper (score : String → String → Nat) (df : DataFrame)
    (sc : Option (List String)) (t : Int) :
    detect_duplicates_simple score df sc t =
      (find_duplicates_advanced score df sc t 2 1 50000).map (fun r => r.1) :=
  rfl

/-! Mask lemmas and the relation between stamped and accepted pairs. -/

theorem allFalseMask_getD (df : DataFrame) (i : Nat) (hi : i < df.nrows) :
    (allFalseMask df).getD i false = false := by
  unfold allFalseMask
  rw [List.getD_eq_getElem _ _ (by simpa using hi)]
  simp

theorem maskOf_getD (n : Nat) (pairs : List DuplicatePair) (i : Nat)
    (hi : i < n) :
    (maskOf n pairs).getD i false =
      pairs.any (fun p => p.left_index == i || p.right_index == i) := by
  unfold maskOf
  rw [List.getD_eq_getElem _ _ (by simpa using hi)]
  simp

theorem map_strip_mem {l1 l2 : List DuplicatePair}
    (h : l1.map stripPair = l2.map stripPair) {p : DuplicatePair}
    (hp : p ∈ l1) : ∃ q ∈ l2, stripPair q = stripPair p := by
  have : stripPair p ∈ l2.map stripPair := by
    rw [← h]
    exact List.mem_map.mpr ⟨p, hp, rfl⟩
  rcases List.mem_map.mp this with ⟨q, hq, hqe⟩
  exact ⟨q, hq, hqe⟩

theorem stamped_to_accepted (score : String → String → Nat) (df : DataFrame)
    (sc : Option (List String)) (t : Int) (bs mn mp : Nat)
    (p : DuplicatePair) (hp : p ∈ stampedPairs score df sc t bs mn mp) :
    ∃ pr ∈ acceptedPairs score df sc t bs mn mp,
      p.left_index = pr.1 ∧ p.right_index = pr.2 := by
  rcases map_strip_mem (stampedPairs_strip score df sc t bs mn mp) hp
    with ⟨q, hq, hqe⟩
  rcases List.mem_map.mp hq with ⟨pr, hpr, hmk⟩
  refine ⟨pr, hpr, ?_, ?_⟩
  · have h1 := congrArg (fun u : Nat × Nat × Nat => u.1) hqe
    rw [← hmk] at h1
    simpa [stripPair, mkPair] using h1.symm
  · have h2 := congrArg (fun u : Nat × Nat × Nat => u.2.1) hqe
    rw [← hmk] at h2
    simpa [stripPair, mkPair] using h2.symm

theorem accepted_to_stamped (score : String → String → Nat) (df : DataFrame)
    (sc : Option (List String)) (t : Int) (bs mn mp : Nat)
    (pr : Nat × Nat) (hpr : pr ∈ acceptedPairs score df sc t bs mn mp) :
    ∃ p ∈ stampedPairs score df sc t bs mn mp,
      p.left_index = pr.1 ∧ p.right_index = pr.2 := by
  have hm : mkPair score (rowKey df (resolvedSubset df sc)) pr ∈
      rawPairs score df sc t bs mn mp :=
    List.mem_map.mpr ⟨pr, hpr, rfl⟩
  rcases map_strip_mem (stampedPairs_strip score df sc t bs mn mp).symm hm
    with ⟨q, hq, hqe⟩
  refine ⟨q, hq, ?_, ?_⟩
  · have h1 := congrArg (fun u : Nat × Nat × Nat => u.1) hqe
    simpa [stripPair, mkPair] using h1
  · have h2 := congrArg (fun u : Nat × Nat × Nat => u.2.1) hqe
    simpa [stripPair, mkPair] using h2

/-- Membership in the final sorted rows, reduced to the stamped list. -/
theorem mem_rows_iff (df : DataFrame) (subset : List String)
    (stamped : List DuplicatePair) (r : PairsRow) :
    r ∈ insertionSort pairsLe (stamped.map (toPairsRow df subset)) ↔
      ∃ p ∈ stamped, r = toPairsRow df subset p := by
  rw [(insertionSort_perm pairsLe (stamped.map (toPairsRow df subset))).mem_iff]
  constructor
  · intro h
    rcases List.mem_map.mp h with ⟨p, hp, he⟩
    exact ⟨p, hp, he.symm⟩
  · intro ⟨p, hp, he⟩
    exact List.mem_map.mpr ⟨p, hp, he.symm⟩

/-- C4: in every successful run the mask has one entry per original row, and
an entry is true exactly when its row id appears as an endpoint of some row
of the pairs table (so filtered-out or skipped rows, which appear in no
pair, are false). -/
theorem C4_mask_consistency (score : String → String → Nat) (df : DataFrame)
    (sc : Option (List String)) (t : Int) (bs mn mp : Nat)
    (mask : List Bool) (tbl : PairsTable)
    (h : find_duplicates_advanced score df sc t bs mn mp = .ok (mask, tbl)) :
    mask.length = df.nrows ∧
    ∀ i, i < df.nrows →
      (mask.getD i false = true ↔
        ∃ r ∈ tbl.rows, r.left_index = i ∨ r.right_index = i) := by
  have hmiss := missing_nil_of_ok score df sc t bs mn mp _ h
  rcases result_cases score df sc t bs mn mp hmiss with ⟨hA, heq⟩ | ⟨hA, heq⟩
  · rw [heq] at h
    injection h with h1
    injection h1 with h2 h3
    subst h2 h3
    constructor
    · simp [allFalseMask, DataFrame.nrows]
    · intro i hi
      rw [allFalseMask_getD df i hi]
      simp
  · rw [heq] at h
    injection h with h1
    injection h1 with h2 h3
    subst h2 h3
    constructor
    · simp [maskOf, DataFrame.nrows]
    · intro i hi
      rw [maskOf_getD df.nrows _ i hi]
      constructor
      · intro hany
        rcases List.any_eq_true.mp hany with ⟨p, hp, hpi⟩
        refine ⟨toPairsRow df (resolvedSubset df sc) p,
          (mem_rows_iff df (resolvedSubset df sc) _ _).mpr ⟨p, hp, rfl⟩, ?_⟩
        rcases Bool.or_eq_true_iff.mp hpi with h1 | h1
        · simp only [beq_iff_eq] at h1
          exact Or.inl (by simpa [toPairsRow] using h1)
        · simp only [beq_iff_eq] at h1
          exact Or.inr (by simpa [toPairsRow] using h1)
      · intro ⟨r, hr, hri⟩
        rcases (mem_rows_iff df (resolvedSubset df sc) _ _).mp hr
          with ⟨p, hp, hre⟩
        refine List.any_eq_true.mpr ⟨p, hp, ?_⟩
        subst hre
        rcases hri with h1 | h1
        · simp [toPairsRow] at h1
          simp [h1]
        · simp [toPairsRow] at h1
          simp [h1]

/-! Structure of the block map. -/

theorem addToBlock_fst (b : String) (i : Nat) :
    ∀ blocks : List (String × List Nat),
      (addToBlock blocks b i).map Prod.fst =
        if b ∈ blocks.map Prod.fst then blocks.map Prod.fst
        else blocks.map Prod.fst ++ [b] := by
  intro blocks
  induction blocks with
  | nil => simp [addToBlock]
  | cons hd tl ih =>
      obtain ⟨k, l⟩ := hd
      by_cases h : k = b
      · subst h
        simp [addToBlock]
      · have hkb : ¬ b = k := fun hh => h hh.symm
        simp only [addToBlock, if_neg h, List.map_cons, ih]
        by_cases hb : b ∈ tl.map Prod.fst
        · simp [hb, hkb]
        · simp [hb, hkb]

theorem addToBlock_flat (b : String) (i : Nat) :
    ∀ blocks : List (String × List Nat),
      ((addToBlock blocks b i).flatMap Prod.snd).Perm
        ((blocks.flatMap Prod.snd) ++ [i]) := by
  intro blocks
  induction blocks with
  | nil => simp [addToBlock]
  | cons hd tl ih =>
      obtain ⟨k, l⟩ := hd
      by_cases h : k = b
      · subst h
        simp only [addToBlock, if_pos rfl, if_true, eq_self_iff_true,
          List.flatMap_cons]
        simpa [List.append_assoc] using
          List.Perm.append_left l
            (@List.perm_append_comm _ [i] (tl.flatMap Prod.snd))
      · simp only [addToBlock, if_neg h, List.flatMap_cons]
        simpa [List.append_assoc] using List.Perm.append_left l ih

theorem mem_addToBlock (b : String) (i : Nat) :
    ∀ (blocks : List (String × List Nat)) (e : String × List Nat),
      e ∈ addToBlock blocks b i →
      e ∈ blocks ∨ (∃ l, (b, l) ∈ blocks ∧ e = (b, l ++ [i])) ∨
        e = (b, [i]) := by
  intro blocks
  induction blocks with
  | nil =>
      intro e he
      simp only [addToBlock, List.mem_singleton] at he
      exact Or.inr (Or.inr he)
  | cons hd tl ih =>
      obtain ⟨k, l⟩ := hd
      intro e he
      by_cases h : k = b
      · subst h
        simp only [addToBlock, if_pos rfl] at he
        rcases List.mem_cons.mp he with h1 | h1
        · exact Or.inr (Or.inl ⟨l, List.mem_cons_self _ _, h1⟩)
        · exact Or.inl (List.mem_cons_of_mem _ h1)
      · simp only [addToBlock, if_neg h] at he
        rcases List.mem_cons.mp he with h1 | h1
        · exact Or.inl (h1 ▸ List.mem_cons_self _ _)
        · rcases ih e h1 with h2 | ⟨l2, hl2, he2⟩ | h2
          · exact Or.inl (List.mem_cons_of_mem _ h2)
          · exact Or.inr (Or.inl ⟨l2, List.mem_cons_of_mem _ hl2, he2⟩)
          · exact Or.inr (Or.inr h2)

/-- Invariant of the blocking fold: block keys stay distinct, every id filed
under a key has that key as its block key, and the filed ids are, up to
order, exactly the processed ids whose block key is non-empty. -/
theorem buildBlocks_fold_inv (keyOf : Nat → String) (bs : Nat) :
    ∀ (cand : List Nat) (blocks : List (String × List Nat))
      (processed : List Nat),
      (blocks.map Prod.fst).Nodup →
      (∀ e ∈ blocks, ∀ j ∈ e.2, _block_key (keyOf j) bs = e.1) →
      ((blocks.flatMap Prod.snd).Perm
        (processed.filter (fun j => _block_key (keyOf j) bs ≠ ""))) →
      ((cand.foldl (fun blocks i =>
          let b := _block_key (keyOf i) bs
          if b = "" then blocks else addToBlock blocks b i) blocks).map
            Prod.fst).Nodup ∧
      (∀ e ∈ cand.foldl (fun blocks i =>
          let b := _block_key (keyOf i) bs
          if b = "" then blocks else addToBlock blocks b i) blocks,
        ∀ j ∈ e.2, _block_key (keyOf j) bs = e.1) ∧
      ((cand.foldl (fun blocks i =>
          let b := _block_key (keyOf i) bs
          if b = "" then blocks else addToBlock blocks b i) blocks).flatMap
            Prod.snd).Perm
        ((processed ++ cand).filter
          (fun j => _block_key (keyOf j) bs ≠ "")) := by
  intro cand
  induction cand with
  | nil =>
      intro blocks processed h1 h2 h3
      exact ⟨h1, h2, by simpa using h3⟩
  | cons i rest ih =>
      intro blocks processed h1 h2 h3
      by_cases hb : _block_key (keyOf i) bs = ""
      · have hstep : (List.foldl (fun blocks i =>
            let b := _block_key (keyOf i) bs
            if b = "" then blocks else addToBlock blocks b i) blocks
              (i :: rest)) =
            List.foldl (fun blocks i =>
              let b := _block_key (keyOf i) bs
              if b = "" then blocks else addToBlock blocks b i) blocks rest := by
          simp [List.foldl_cons, hb]
        rw [hstep]
        have h3' : ((blocks.flatMap Prod.snd).Perm
            ((processed ++ [i]).filter
              (fun j => _block_key (keyOf j) bs ≠ ""))) := by
          rw [List.filter_append]
          simpa [hb] using h3
        have := ih blocks (processed ++ [i]) h1 h2 h3'
        simpa [List.append_assoc] using this
      · have hstep : (List.foldl (fun blocks i =>
            let b := _block_key (keyOf i) bs
            if b = "" then blocks else addToBlock blocks b i) blocks
              (i :: rest)) =
            List.foldl (fun blocks i =>
              let b := _block_key (keyOf i) bs
              if b = "" then blocks else addToBlock blocks b i)
              (addToBlock blocks (_block_key (keyOf i) bs) i) rest := by
          simp [List.foldl_cons, hb]
        rw [hstep]
        have h1' : ((addToBlock blocks (_block_key (keyOf i) bs) i).map
            Prod.fst).Nodup := by
          rw [addToBlock_fst]
          by_cases hm : _block_key (keyOf i) bs ∈ blocks.map Prod.fst
          · simpa [hm] using h1
          · rw [if_neg hm]
            exact List.nodup_append.mpr ⟨h1, List.nodup_singleton _,
              by
                intro a ha hb2
                rcases List.mem_singleton.mp hb2 with rfl
                exact hm ha⟩
        have h2' : ∀ e ∈ addToBlock blocks (_block_key (keyOf i) bs) i,
            ∀ j ∈ e.2, _block_key (keyOf j) bs = e.1 := by
          intro e he j hj
          rcases mem_addToBlock _ _ _ _ he with hcase | ⟨l2, hl2, rfl⟩ | rfl
          · exact h2 e hcase j hj
          · rcases List.mem_append.mp hj with hj1 | hj1
            · exact h2 (_, l2) hl2 j hj1
            · rcases List.mem_singleton.mp hj1 with rfl
              rfl
          · rcases List.mem_singleton.mp hj with rfl
            rfl
        have h3' : (((addToBlock blocks (_block_key (keyOf i) bs) i).flatMap
            Prod.snd).Perm
            ((processed ++ [i]).filter
              (fun j => _block_key (keyOf j) bs ≠ ""))) := by
          refine (addToBlock_flat _ _ _).trans ?_
          rw [List.filter_append]
          have hfi : List.filter (fun j =>
              decide (_block_key (keyOf j) bs ≠ "")) [i] = [i] := by
            simp [hb]
          rw [hfi]
          exact h3.append_right [i]
        have := ih (addToBlock blocks (_block_key (keyOf i) bs) i)
          (processed ++ [i]) h1' h2' h3'
        simpa [List.append_assoc] using this

theorem validCandidates_nodup (df : DataFrame) (subset : List String)
    (mn : Nat) : (validCandidates df subset mn).Nodup :=
  ((List.nodup_range _).filter _).filter _

theorem blocksOf_keys_nodup (df : DataFrame) (subset : List String)
    (mn bs : Nat) : ((blocksOf df subset mn bs).map Prod.fst).Nodup :=
  (buildBlocks_fold_inv (rowKey df subset) bs
    (validCandidates df subset mn) [] [] (by simp) (by simp) (by simp)).1

theorem blocksOf_entry_key (df : DataFrame) (subset : List String)
    (mn bs : Nat) (e : String × List Nat)
    (he : e ∈ blocksOf df subset mn bs) :
    ∀ j ∈ e.2, _block_key (rowKey df subset j) bs = e.1 :=
  (buildBlocks_fold_inv (rowKey df subset) bs
    (validCandidates df subset mn) [] [] (by simp) (by simp) (by simp)).2.1
    e he

theorem blocksOf_flat_perm (df : DataFrame) (subset : List String)
    (mn bs : Nat) :
    (((blocksOf df subset mn bs).flatMap Prod.snd).Perm
      ((validCandidates df subset mn).filter
        (fun j => _block_key (rowKey df subset j) bs ≠ ""))) := by
  have := (buildBlocks_fold_inv (rowKey df subset) bs
    (validCandidates df subset mn) [] [] (by simp) (by simp) (by simp)).2.2
  simpa using this

theorem blocksOf_flat_nodup (df : DataFrame) (subset : List String)
    (mn bs : Nat) : ((blocksOf df subset mn bs).flatMap Prod.snd).Nodup :=
  (blocksOf_flat_perm df subset mn bs).nodup_iff.mpr
    ((validCandidates_nodup df subset mn).filter _)

theorem blocksOf_mem_valid (df : DataFrame) (subset : List String)
    (mn bs : Nat) (e : String × List Nat)
    (he : e ∈ blocksOf df subset mn bs) (j : Nat) (hj : j ∈ e.2) :
    j ∈ validCandidates df subset mn := by
  have hflat : j ∈ (blocksOf df subset mn bs).flatMap Prod.snd :=
    List.mem_flatMap.mpr ⟨e, he, hj⟩
  have := (blocksOf_flat_perm df subset mn bs).mem_iff.mp hflat
  exact (List.mem_filter.mp this).1

theorem flatMap_sublist_of_mem {L : List (String × List Nat)}
    (e : String × List Nat) (he : e ∈ L) :
    e.2.Sublist (L.flatMap Prod.snd) := by
  induction L with
  | nil => cases he
  | cons hd tl ih =>
      rcases List.mem_cons.mp he with rfl | h1
      · simpa [List.flatMap_cons] using List.sublist_append_left e.2 _
      · exact (ih h1).trans (by
          simpa [List.flatMap_cons] using
            List.sublist_append_right hd.2 (tl.flatMap Prod.snd))

theorem blocksOf_entry_nodup (df : DataFrame) (subset : List String)
    (mn bs : Nat) (e : String × List Nat)
    (he : e ∈ blocksOf df subset mn bs) : e.2.Nodup :=
  (flatMap_sublist_of_mem e he).nodup (blocksOf_flat_nodup df subset mn bs)

theorem entries_eq_of_fst_nodup :
    ∀ (L : List (String × List Nat)), (L.map Prod.fst).Nodup →
    ∀ e1 e2 : String × List Nat, e1 ∈ L → e2 ∈ L → e1.1 = e2.1 → e1 = e2 := by
  intro L
  induction L with
  | nil => intro _ e1 e2 h1; cases h1
  | cons hd tl ih =>
      intro hnd e1 e2 h1 h2 hk
      have hnd1 : hd.1 ∉ tl.map Prod.fst := by
        simp only [List.map_cons, List.nodup_cons] at hnd
        exact hnd.1
      have hnd2 : (tl.map Prod.fst).Nodup := by
        simp only [List.map_cons, List.nodup_cons] at hnd
        exact hnd.2
      rcases List.mem_cons.mp h1 with rfl | h1t
      · rcases List.mem_cons.mp h2 with rfl | h2t
        · rfl
        · exfalso
          apply hnd1
          rw [hk]
          exact List.mem_map.mpr ⟨e2, h2t, rfl⟩
      · rcases List.mem_cons.mp h2 with rfl | h2t
        · exfalso
          apply hnd1
          rw [← hk]
          exact List.mem_map.mpr ⟨e1, h1t, rfl⟩
        · exact ih hnd2 e1 e2 h1t h2t hk

theorem blocksOf_entry_unique (df : DataFrame) (subset : List String)
    (mn bs : Nat) (e1 e2 : String × List Nat)
    (h1 : e1 ∈ blocksOf df subset mn bs) (h2 : e2 ∈ blocksOf df subset mn bs)
    (i : Nat) (hi1 : i ∈ e1.2) (hi2 : i ∈ e2.2) : e1 = e2 := by
  have hk1 := blocksOf_entry_key df subset mn bs e1 h1 i hi1
  have hk2 := blocksOf_entry_key df subset mn bs e2 h2 i hi2
  exact entries_eq_of_fst_nodup _ (blocksOf_keys_nodup df subset mn bs)
    e1 e2 h1 h2 (hk1 ▸ hk2 ▸ rfl)

/-! Structure of the comparison list. -/

theorem mem_ordPairs :
    ∀ (l : List Nat) (pr : Nat × Nat), pr ∈ ordPairs l →
      pr.1 ∈ l ∧ pr.2 ∈ l := by
  intro l
  induction l with
  | nil => intro pr h; simp [ordPairs] at h
  | cons x xs ih =>
      intro pr h
      simp only [ordPairs, List.mem_append] at h
      rcases h with h1 | h1
      · rcases List.mem_map.mp h1 with ⟨y, hy, rfl⟩
        exact ⟨List.mem_cons_self _ _, List.mem_cons_of_mem _ hy⟩
      · rcases ih pr h1 with ⟨ha, hb⟩
        exact ⟨List.mem_cons_of_mem _ ha, List.mem_cons_of_mem _ hb⟩

theorem ordPairs_ne :
    ∀ l : List Nat, l.Nodup → ∀ pr ∈ ordPairs l, pr.1 ≠ pr.2 := by
  intro l
  induction l with
  | nil => intro _ pr h; simp [ordPairs] at h
  | cons x xs ih =>
      intro hnd pr h
      rw [List.nodup_cons] at hnd
      simp only [ordPairs, List.mem_append] at h
      rcases h with h1 | h1
      · rcases List.mem_map.mp h1 with ⟨y, hy, rfl⟩
        intro he
        have he2 : x = y := he
        exact hnd.1 (by rw [he2]; exact hy)
      · exact ih hnd.2 pr h1

theorem ordPairs_pairwise :
    ∀ l : List Nat, l.Nodup → List.Pairwise udist (ordPairs l) := by
  intro l
  induction l with
  | nil => intro _; simp [ordPairs]
  | cons x xs ih =>
      intro hnd
      rw [List.nodup_cons] at hnd
      simp only [ordPairs]
      rw [List.pairwise_append]
      refine ⟨?_, ih hnd.2, ?_⟩
      · rw [List.pairwise_map]
        refine List.Pairwise.imp_of_mem ?_ hnd.2
        intro a b ha hb hne
        constructor
        · intro hc
          exact hne hc.2
        · intro hc
          have hc1 : x = b := hc.1
          exact hnd.1 (by rw [hc1]; exact hb)
      · intro p hp q hq
        rcases List.mem_map.mp hp with ⟨y, hy, rfl⟩
        rcases mem_ordPairs xs q hq with ⟨hq1, hq2⟩
        constructor
        · intro hc
          have hc1 : x = q.1 := hc.1
          exact hnd.1 (by rw [hc1]; exact hq1)
        · intro hc
          have hc1 : x = q.2 := hc.1
          exact hnd.1 (by rw [hc1]; exact hq2)

theorem mem_comparisons (blocks : List (String × List Nat)) (mp : Nat)
    (pr : Nat × Nat) (h : pr ∈ comparisons blocks mp) :
    ∃ e ∈ blocks, ¬(e.2.length < 2) ∧
      ¬(e.2.length * (e.2.length - 1) / 2 > mp) ∧ pr ∈ ordPairs e.2 := by
  unfold comparisons at h
  rcases List.mem_flatMap.mp h with ⟨e, he, hpr⟩
  by_cases h1 : e.2.length < 2
  · rw [if_pos h1] at hpr
    cases hpr
  · rw [if_neg h1] at hpr
    by_cases h2 : e.2.length * (e.2.length - 1) / 2 > mp
    · rw [if_pos h2] at hpr
      cases hpr
    · rw [if_neg h2] at hpr
      exact ⟨e, he, h1, h2, hpr⟩

theorem mem_guarded_ordPairs (mp : Nat) (e : String × List Nat)
    (x : Nat × Nat)
    (hx : x ∈ (if e.2.length < 2 then []
      else if e.2.length * (e.2.length - 1) / 2 > mp then []
      else ordPairs e.2)) : x ∈ ordPairs e.2 := by
  by_cases h1 : e.2.length < 2
  · rw [if_pos h1] at hx
    cases hx
  · rw [if_neg h1] at hx
    by_cases h2 : e.2.length * (e.2.length - 1) / 2 > mp
    · rw [if_pos h2] at hx
      cases hx
    · rwa [if_neg h2] at hx

theorem comparisons_pairwise (df : DataFrame) (subset : List String)
    (mn bs mp : Nat) :
    List.Pairwise udist (comparisons (blocksOf df subset mn bs) mp) := by
  unfold comparisons
  rw [List.flatMap_def, List.pairwise_flatten]
  constructor
  · intro l hl
    rcases List.mem_map.mp hl with ⟨e, he, rfl⟩
    by_cases h1 : e.2.length < 2
    · simp [h1]
    · by_cases h2 : e.2.length * (e.2.length - 1) / 2 > mp
      · simp [h1, h2]
      · rw [if_neg h1, if_neg h2]
        exact ordPairs_pairwise e.2 (blocksOf_entry_nodup df subset mn bs e he)
  · have hdisj : List.Pairwise
        (fun e1 e2 : String × List Nat => e1.2.Disjoint e2.2)
        (blocksOf df subset mn bs) := by
      have hn := blocksOf_flat_nodup df subset mn bs
      rw [List.flatMap_def, List.nodup_flatten] at hn
      exact List.pairwise_map.mp hn.2
    rw [List.pairwise_map]
    refine List.Pairwise.imp_of_mem ?_ hdisj
    intro e1 e2 he1 he2 hd
    intro p hp q hq
    have hp2 := mem_guarded_ordPairs mp e1 p hp
    have hq2 := mem_guarded_ordPairs mp e2 q hq
    rcases mem_ordPairs e1.2 p hp2 with ⟨hp1, hp2b⟩
    rcases mem_ordPairs e2.2 q hq2 with ⟨hq1, hq2b⟩
    constructor
    · intro hc
      exact hd hp1 (by rw [hc.1]; exact hq1)
    · intro hc
      exact hd hp1 (by rw [hc.1]; exact hq2b)

/-- Every accepted comparison lies inside a single processed block. -/
theorem accepted_in_block (score : String → String → Nat) (df : DataFrame)
    (sc : Option (List String)) (t : Int) (bs mn mp : Nat) (pr : Nat × Nat)
    (h : pr ∈ acceptedPairs score df sc t bs mn mp) :
    ∃ e ∈ blocksOf df (resolvedSubset df sc) mn bs,
      ¬(e.2.length < 2) ∧ ¬(e.2.length * (e.2.length - 1) / 2 > mp) ∧
      pr.1 ∈ e.2 ∧ pr.2 ∈ e.2 ∧ pr.1 ≠ pr.2 := by
  have hc : pr ∈ comparisons (blocksOf df (resolvedSubset df sc) mn bs) mp :=
    List.mem_filter.mp h |>.1
  rcases mem_comparisons _ mp pr hc with ⟨e, he, h1, h2, hop⟩
  rcases mem_ordPairs e.2 pr hop with ⟨hm1, hm2⟩
  exact ⟨e, he, h1, h2, hm1, hm2,
    ordPairs_ne e.2 (blocksOf_entry_nodup df (resolvedSubset df sc) mn bs e he)
      pr hop⟩

theorem accepted_pairwise (score : String → String → Nat) (df : DataFrame)
    (sc : Option (List String)) (t : Int) (bs mn mp : Nat) :
    List.Pairwise udist (acceptedPairs score df sc t bs mn mp) :=
  (comparisons_pairwise df (resolvedSubset df sc) mn bs mp).sublist
    (List.filter_sublist _)

theorem pairwise_strip_transfer {l1 l2 : List DuplicatePair}
    (T : Nat × Nat × Nat → Nat × Nat × Nat → Prop)
    (h : l1.map stripPair = l2.map stripPair)
    (hp : List.Pairwise (fun p q => T (stripPair p) (stripPair q)) l2) :
    List.Pairwise (fun p q => T (stripPair p) (stripPair q)) l1 := by
  have h2 : List.Pairwise T (l2.map stripPair) := List.pairwise_map.mpr hp
  rw [← h] at h2
  exact List.pairwise_map.mp h2

theorem validCandidates_lt (df : DataFrame) (subset : List String)
    (mn : Nat) (i : Nat) (hi : i ∈ validCandidates df subset mn) :
    i < df.nrows := by
  unfold validCandidates candidateIdx at hi
  exact List.mem_range.mp
    ((List.mem_filter.mp (List.mem_filter.mp hi).1).1)

/-- C6: the pairs table holds at most one entry per unordered pair of row
ids — if (a,b) appears, neither (a,b) nor (b,a) appears a second time — no
entry pairs a row with itself, and both endpoints of every entry lie in the
same block. -/
theorem C6_unordered_pairs_unique (score : String → String → Nat)
    (df : DataFrame) (sc : Option (List String)) (t : Int) (bs mn mp : Nat)
    (mask : List Bool) (tbl : PairsTable)
    (h : find_duplicates_advanced score df sc t bs mn mp = .ok (mask, tbl)) :
    List.Pairwise (fun r1 r2 : PairsRow =>
      ¬(r1.left_index = r2.left_index ∧ r1.right_index = r2.right_index) ∧
      ¬(r1.left_index = r2.right_index ∧ r1.right_index = r2.left_index))
      tbl.rows ∧
    (∀ r ∈ tbl.rows, r.left_index ≠ r.right_index) ∧
    (∀ r ∈ tbl.rows, ∃ e ∈ blocksOf df (resolvedSubset df sc) mn bs,
      r.left_index ∈ e.2 ∧ r.right_index ∈ e.2) := by
  have hmiss := missing_nil_of_ok score df sc t bs mn mp _ h
  rcases result_cases score df sc t bs mn mp hmiss with ⟨hA, heq⟩ | ⟨hA, heq⟩
  · rw [heq] at h
    injection h with h1
    injection h1 with h2 h3
    subst h2 h3
    simp
  · rw [heq] at h
    injection h with h1
    injection h1 with h2 h3
    subst h2 h3
    refine ⟨?_, ?_, ?_⟩
    · have hsy : ∀ {r1 r2 : PairsRow},
          (¬(r1.left_index = r2.left_index ∧
              r1.right_index = r2.right_index) ∧
           ¬(r1.left_index = r2.right_index ∧
              r1.right_index = r2.left_index)) →
          (¬(r2.left_index = r1.left_index ∧
              r2.right_index = r1.right_index) ∧
           ¬(r2.left_index = r1.right_index ∧
              r2.right_index = r1.left_index)) := by
        intro r1 r2 hr
        constructor
        · intro hc
          exact hr.1 ⟨hc.1.symm, hc.2.symm⟩
        · intro hc
          exact hr.2 ⟨hc.2.symm, hc.1.symm⟩
      rw [(insertionSort_perm pairsLe _).pairwise_iff hsy]
      rw [List.pairwise_map]
      have hraw : List.Pairwise (fun p q : DuplicatePair =>
          (fun a b : Nat × Nat × Nat =>
            ¬(a.1 = b.1 ∧ a.2.1 = b.2.1) ∧ ¬(a.1 = b.2.1 ∧ a.2.1 = b.1))
            (stripPair p) (stripPair q))
          (rawPairs score df sc t bs mn mp) := by
        unfold rawPairs
        rw [List.pairwise_map]
        refine (accepted_pairwise score df sc t bs mn mp).imp ?_
        intro a b hab
        exact hab
      have := pairwise_strip_transfer
        (fun a b : Nat × Nat × Nat =>
          ¬(a.1 = b.1 ∧ a.2.1 = b.2.1) ∧ ¬(a.1 = b.2.1 ∧ a.2.1 = b.1))
        (stampedPairs_strip score df sc t bs mn mp) hraw
      exact this
    · intro r hr
      rcases (mem_rows_iff df (resolvedSubset df sc) _ r).mp hr
        with ⟨p, hp, rfl⟩
      rcases stamped_to_accepted score df sc t bs mn mp p hp
        with ⟨pr, hpr, hL, hR⟩
      rcases accepted_in_block score df sc t bs mn mp pr hpr
        with ⟨e, he, _, _, _, _, hne⟩
      simpa [toPairsRow, hL, hR] using hne
    · intro r hr
      rcases (mem_rows_iff df (resolvedSubset df sc) _ r).mp hr
        with ⟨p, hp, rfl⟩
      rcases stamped_to_accepted score df sc t bs mn mp p hp
        with ⟨pr, hpr, hL, hR⟩
      rcases accepted_in_block score df sc t bs mn mp pr hpr
        with ⟨e, he, _, _, hm1, hm2, _⟩
      exact ⟨e, he, by simpa [toPairsRow, hL] using hm1,
        by simpa [toPairsRow, hR] using hm2⟩

/-- C6 witness: the theorem applied to the `dfPair` run with one accepted
pair. -/
theorem C6_unordered_pairs_unique_witness :
    List.Pairwise (fun r1 r2 : PairsRow =>
      ¬(r1.left_index = r2.left_index ∧ r1.right_index = r2.right_index) ∧
      ¬(r1.left_index = r2.right_index ∧ r1.right_index = r2.left_index))
      ([⟨1, 0, 1, 100, "alice smith", "alice smith"⟩] : List PairsRow) ∧
    (∀ r ∈ ([⟨1, 0, 1, 100, "alice smith", "alice smith"⟩] : List PairsRow),
      r.left_index ≠ r.right_index) ∧
    (∀ r ∈ ([⟨1, 0, 1, 100, "alice smith", "alice smith"⟩] : List PairsRow),
      ∃ e ∈ blocksOf dfPair (resolvedSubset dfPair (some ["name"])) 1 2,
        r.left_index ∈ e.2 ∧ r.right_index ∈ e.2) :=
  C6_unordered_pairs_unique scoreEq dfPair (some ["name"]) 80 2 1 50000
    [true, true, false]
    ⟨pairsCols, [⟨1, 0, 1, 100, "alice smith", "alice smith"⟩]⟩ (by rfl)

/-- C7: a block whose pairwise comparison count exceeds
`max_pairs_per_block` is skipped whole — the call still succeeds, every row
of that block keeps a false mask entry, and no pairs-table row touches any
of its rows. -/
theorem C7_oversized_block_skipped (score : String → String → Nat)
    (df : DataFrame) (sc : Option (List String)) (t : Int) (bs mn mp : Nat)
    (e : String × List Nat)
    (hmiss : missingCols df (resolvedSubset df sc) = [])
    (he : e ∈ blocksOf df (resolvedSubset df sc) mn bs)
    (hbig : e.2.length * (e.2.length - 1) / 2 > mp) :
    ∃ mask tbl,
      find_duplicates_advanced score df sc t bs mn mp = .ok (mask, tbl) ∧
      ∀ i ∈ e.2, mask.getD i false = false ∧
        ∀ r ∈ tbl.rows, r.left_index ≠ i ∧ r.right_index ≠ i := by
  have hnotouch : ∀ pr ∈ acceptedPairs score df sc t bs mn mp,
      ∀ i ∈ e.2, pr.1 ≠ i ∧ pr.2 ≠ i := by
    intro pr hpr i hi
    rcases accepted_in_block score df sc t bs mn mp pr hpr
      with ⟨e2, he2, _, hcap, hm1, hm2, _⟩
    constructor
    · intro hc
      subst hc
      have := blocksOf_entry_unique df (resolvedSubset df sc) mn bs e e2
        he he2 pr.1 hi hm1
      rw [this] at hbig
      exact hcap hbig
    · intro hc
      subst hc
      have := blocksOf_entry_unique df (resolvedSubset df sc) mn bs e e2
        he he2 pr.2 hi hm2
      rw [this] at hbig
      exact hcap hbig
  rcases result_cases score df sc t bs mn mp hmiss with ⟨hA, heq⟩ | ⟨hA, heq⟩
  · refine ⟨_, _, heq, ?_⟩
    intro i hi
    have hlt : i < df.nrows := validCandidates_lt df (resolvedSubset df sc)
      mn i (blocksOf_mem_valid df (resolvedSubset df sc) mn bs e he i hi)
    refine ⟨allFalseMask_getD df i hlt, ?_⟩
    intro r hr
    simp at hr
  · refine ⟨_, _, heq, ?_⟩
    intro i hi
    have hlt : i < df.nrows := validCandidates_lt df (resolvedSubset df sc)
      mn i (blocksOf_mem_valid df (resolvedSubset df sc) mn bs e he i hi)
    have hstamped : ∀ p ∈ stampedPairs score df sc t bs mn mp,
        p.left_index ≠ i ∧ p.right_index ≠ i := by
      intro p hp
      rcases stamped_to_accepted score df sc t bs mn mp p hp
        with ⟨pr, hpr, hL, hR⟩
      rcases hnotouch pr hpr i hi with ⟨hn1, hn2⟩
      rw [hL, hR]
      exact ⟨hn1, hn2⟩
    constructor
    · rw [maskOf_getD df.nrows _ i hlt]
      by_contra hany
      rw [Bool.not_eq_false] at hany
      rcases List.any_eq_true.mp hany with ⟨p, hp, hpi⟩
      rcases Bool.or_eq_true_iff.mp hpi with h1 | h1
      · exact (hstamped p hp).1 (by simpa using h1)
      · exact (hstamped p hp).2 (by simpa using h1)
    · intro r hr
      rcases (mem_rows_iff df (resolvedSubset df sc) _ r).mp hr
        with ⟨p, hp, rfl⟩
      rcases hstamped p hp with ⟨hn1, hn2⟩
      exact ⟨by simpa [toPairsRow] using hn1, by simpa [toPairsRow] using hn2⟩

/-- C7 witness: with `max_pairs_per_block = 0` the two-row block "al" of
`dfPair` is skipped, its rows stay unmatched, and no error is raised. -/
theorem C7_oversized_block_skipped_witness :
    missingCols dfPair (resolvedSubset dfPair (some ["name"])) = [] ∧
    ("al", [0, 1]) ∈ blocksOf dfPair (resolvedSubset dfPair (some ["name"]))
      1 2 ∧
    ("al", ([0, 1] : List Nat)).2.length *
      (("al", ([0, 1] : List Nat)).2.length - 1) / 2 > 0 ∧
    ∃ mask tbl,
      find_duplicates_advanced scoreEq dfPair (some ["name"]) 80 2 1 0 =
        .ok (mask, tbl) ∧
      ∀ i ∈ ("al", ([0, 1] : List Nat)).2, mask.getD i false = false ∧
        ∀ r ∈ tbl.rows, r.left_index ≠ i ∧ r.right_index ≠ i :=
  ⟨by decide, by decide, by decide,
   C7_oversized_block_skipped scoreEq dfPair (some ["name"]) 80 2 1 0
     ("al", [0, 1]) (by decide) (by decide) (by decide)⟩

/-- C4 witness: the mask-consistency theorem applied to the `dfPair` run. -/
theorem C4_mask_consistency_witness :
    ([true, true, false] : List Bool).length = dfPair.nrows ∧
    ∀ i, i < dfPair.nrows →
      (([true, true, false] : List Bool).getD i false = true ↔
        ∃ r ∈ (⟨pairsCols,
          [⟨1, 0, 1, 100, "alice smith", "alice smith"⟩]⟩ : PairsTable).rows,
          r.left_index = i ∨ r.right_index = i) :=
  C4_mask_consistency scoreEq dfPair (some ["name"]) 80 2 1 50000
    [true, true, false]
    ⟨pairsCols, [⟨1, 0, 1, 100, "alice smith", "alice smith"⟩]⟩ (by rfl)

/-! Union-find correctness: the parent map as a rooted forest. -/

theorem reaches_unique {p : Nat → Nat} {z r r2 : Nat}
    (h1 : Reaches p z r) (h2 : Reaches p z r2) : r = r2 := by
  obtain ⟨⟨k, hk⟩, hr⟩ := h1
  obtain ⟨⟨m, hm⟩, hr2⟩ := h2
  rcases le_total k m with hle | hle
  · have : p^[m] z = r := by
      have hsplit : p^[(m - k) + k] z = p^[m - k] (p^[k] z) :=
        Function.iterate_add_apply p (m - k) k z
      rw [Nat.sub_add_cancel hle] at hsplit
      rw [hsplit, hk]
      exact Function.iterate_fixed hr (m - k)
    rw [this] at hm
    exact hm
  · have : p^[k] z = r2 := by
      have hsplit : p^[(k - m) + m] z = p^[k - m] (p^[m] z) :=
        Function.iterate_add_apply p (k - m) m z
      rw [Nat.sub_add_cancel hle] at hsplit
      rw [hsplit, hm]
      exact Function.iterate_fixed hr2 (k - m)
    rw [this] at hk
    exact hk.symm

theorem pres_refl (p : Nat → Nat) : Pres p p := by
  intro k z r hk hr
  exact ⟨k, le_refl k, hk, hr⟩

theorem pres_trans {p q s : Nat → Nat} (h1 : Pres p q) (h2 : Pres q s) :
    Pres p s := by
  intro k z r hk hr
  rcases h1 k z r hk hr with ⟨m, hm, hqm, hqr⟩
  rcases h2 m z r hqm hqr with ⟨m2, hm2, hsm, hsr⟩
  exact ⟨m2, le_trans hm2 hm, hsm, hsr⟩

theorem totalB_pres {p q : Nat → Nat} {m : Nat} (hT : TotalB p m)
    (h : Pres p q) : TotalB q m := by
  intro z
  rcases hT z with ⟨k, r, hk, hchain, hroot⟩
  rcases h k z r hchain hroot with ⟨m2, hm2, hq, hqr⟩
  exact ⟨m2, r, le_trans hm2 hk, hq, hqr⟩

theorem reaches_pres {p q : Nat → Nat} {z r : Nat} (h : Pres p q)
    (hr : Reaches p z r) : Reaches q z r := by
  obtain ⟨⟨k, hk⟩, hroot⟩ := hr
  rcases h k z r hk hroot with ⟨m, _, hq, hqr⟩
  exact ⟨⟨m, hq⟩, hqr⟩

/-- A path-halving step (`parent[x] = parent[parent[x]]`) preserves every
chain, no longer than before. -/
theorem halve_pres (p : Nat → Nat) (x : Nat) (hx : p x ≠ x) :
    Pres p (updateF p x (p (p x))) := by
  intro k
  induction k using Nat.strong_induction_on with
  | _ k ih =>
    intro z r hk hr
    have hrx : r ≠ x := by
      intro hc
      rw [hc] at hr
      exact hx hr
    have hqroot : updateF p x (p (p x)) r = r := by
      simp [updateF, hrx, hr]
    rcases Nat.eq_zero_or_pos k with rfl | hkpos
    · simp only [Function.iterate_zero_apply] at hk
      subst hk
      exact ⟨0, le_refl 0, by simp, hqroot⟩
    · by_cases hzx : z = x
      · subst hzx
        rcases Nat.lt_or_ge k 2 with hk2 | hk2
        · have hk1 : k = 1 := by omega
          subst hk1
          have hpz : p z = r := by simpa using hk
          refine ⟨1, le_refl 1, ?_, hqroot⟩
          have hq : updateF p z (p (p z)) z = p (p z) := by simp [updateF]
          simp only [Function.iterate_one]
          rw [hq, hpz, hr]
        · have hchain : p^[k - 2] (p (p z)) = r := by
            have hs : p^[(k - 2) + 2] z = p^[k - 2] (p^[2] z) :=
              Function.iterate_add_apply p (k - 2) 2 z
            rw [Nat.sub_add_cancel hk2, hk] at hs
            have h2x : p^[2] z = p (p z) := by
              simp [Function.iterate_succ_apply]
            rw [h2x] at hs
            exact hs.symm
          rcases ih (k - 2) (by omega) (p (p z)) r hchain hr
            with ⟨m, hm, hqm, hqr⟩
          refine ⟨m + 1, by omega, ?_, hqr⟩
          rw [Function.iterate_succ_apply]
          have hq : updateF p z (p (p z)) z = p (p z) := by simp [updateF]
          rw [hq]
          exact hqm
      · have hchain : p^[k - 1] (p z) = r := by
          have hs : p^[(k - 1) + 1] z = p^[k - 1] (p^[1] z) :=
            Function.iterate_add_apply p (k - 1) 1 z
          rw [Nat.sub_add_cancel hkpos, hk] at hs
          simpa using hs.symm
        rcases ih (k - 1) (by omega) (p z) r hchain hr
          with ⟨m, hm, hqm, hqr⟩
        refine ⟨m + 1, by omega, ?_, hqr⟩
        rw [Function.iterate_succ_apply]
        have hq : updateF p x (p (p x)) z = p z := by simp [updateF, hzx]
        rw [hq]
        exact hqm

/-- `find` returns the root at the other end of the chain, and its path
halving preserves every chain. -/
theorem find_spec : ∀ (fuel : Nat) (p : Nat → Nat) (x k r : Nat),
    p^[k] x = r → p r = r → k ≤ fuel →
    (find p fuel x).1 = r ∧ Pres p (find p fuel x).2 := by
  intro fuel
  induction fuel with
  | zero =>
      intro p x k r hk hr hle
      have hk0 : k = 0 := by omega
      subst hk0
      simp only [Function.iterate_zero_apply] at hk
      subst hk
      exact ⟨rfl, pres_refl p⟩
  | succ fuel ih =>
      intro p x k r hk hr hle
      by_cases hpx : p x = x
      · have hxr : r = x := by
          have hfix : p^[k] x = x := Function.iterate_fixed hpx k
          rw [hk] at hfix
          exact hfix
        have hfind : find p (fuel + 1) x = (x, p) := by simp [find, hpx]
        rw [hfind]
        exact ⟨hxr.symm, pres_refl p⟩
      · have hpres := halve_pres p x hpx
        rcases hpres k x r hk hr with ⟨m, hm, hqm, hqr⟩
        have hxr : x ≠ r := by
          intro hc
          rw [← hc] at hr
          exact hpx hr
        have hm1 : 1 ≤ m := by
          rcases Nat.eq_zero_or_pos m with rfl | h
          · simp only [Function.iterate_zero_apply] at hqm
            exact absurd hqm hxr
          · exact h
        have hchain : (updateF p x (p (p x)))^[m - 1]
            ((updateF p x (p (p x))) x) = r := by
          have hs : (updateF p x (p (p x)))^[(m - 1) + 1] x = r := by
            rw [Nat.sub_add_cancel hm1]
            exact hqm
          rw [Function.iterate_succ_apply] at hs
          exact hs
        have hrec := ih (updateF p x (p (p x)))
          ((updateF p x (p (p x))) x) (m - 1) r hchain hqr (by omega)
        have hfind : find p (fuel + 1) x =
            find (updateF p x (p (p x))) fuel
              ((updateF p x (p (p x))) x) := by
          simp [find, hpx]
        rw [hfind]
        exact ⟨hrec.1, pres_trans hpres hrec.2⟩

/-- Grafting root `ry` under root `rx` renames roots by the collapse map
and lengthens chains by at most one. -/
theorem update_pres (p : Nat → Nat) (rx ry : Nat) (hrx : p rx = rx)
    (hry : p ry = ry) (hne : rx ≠ ry) :
    PresU p (updateF p ry rx) rx ry := by
  intro k
  induction k using Nat.strong_induction_on with
  | _ k ih =>
    intro z r hk hr
    have hqroot : updateF p ry rx (if r = ry then rx else r) =
        (if r = ry then rx else r) := by
      by_cases hrry : r = ry
      · simp [hrry, updateF, hne, hrx]
      · simp [hrry, updateF, hr]
    rcases Nat.eq_zero_or_pos k with rfl | hkpos
    · simp only [Function.iterate_zero_apply] at hk
      subst hk
      by_cases hrry : z = ry
      · refine ⟨1, by omega, ?_, hqroot⟩
        simp only [Function.iterate_one]
        simp [updateF, hrry]
      · exact ⟨0, by omega, by simp [hrry], hqroot⟩
    · by_cases hzry : z = ry
      · have hrry : r = ry := by
          rw [← hk, hzry]
          exact Function.iterate_fixed hry k
        refine ⟨1, by omega, ?_, hqroot⟩
        simp only [Function.iterate_one]
        simp [updateF, hzry, hrry]
      · have hchain : p^[k - 1] (p z) = r := by
          have hs : p^[(k - 1) + 1] z = p^[k - 1] (p^[1] z) :=
            Function.iterate_add_apply p (k - 1) 1 z
          rw [Nat.sub_add_cancel hkpos, hk] at hs
          simpa using hs.symm
        rcases ih (k - 1) (by omega) (p z) r hchain hr
          with ⟨m, hm, hqm, hqr⟩
        refine ⟨m + 1, by omega, ?_, hqr⟩
        rw [Function.iterate_succ_apply]
        have hq : updateF p ry rx z = p z := by simp [updateF, hzry]
        rw [hq]
        exact hqm

/-- `union` renames the root of `y`'s class onto the root of `x`'s class
and preserves all chains with at most one extra step. -/
theorem union_spec (p : Nat → Nat) (fuel x y m : Nat) (hT : TotalB p m)
    (hfuel : m ≤ fuel) (rx ry : Nat) (hrx : Reaches p x rx)
    (hry : Reaches p y ry) :
    PresU p (union p fuel x y) rx ry := by
  obtain ⟨kx, rx2, hkx, hxchain, hxroot⟩ := hT x
  have hrxe : rx2 = rx := reaches_unique ⟨⟨kx, hxchain⟩, hxroot⟩ hrx
  rw [hrxe] at hxchain hxroot
  have hfx := find_spec fuel p x kx rx hxchain hxroot (le_trans hkx hfuel)
  have hT1 : TotalB (find p fuel x).2 m := totalB_pres hT hfx.2
  have hry1 : Reaches (find p fuel x).2 y ry := reaches_pres hfx.2 hry
  obtain ⟨ky, ry2, hky, hychain, hyroot⟩ := hT1 y
  have hrye : ry2 = ry := reaches_unique ⟨⟨ky, hychain⟩, hyroot⟩ hry1
  rw [hrye] at hychain hyroot
  have hfy := find_spec fuel (find p fuel x).2 y ky ry hychain hyroot
    (le_trans hky hfuel)
  have hpres2 : Pres p (find (find p fuel x).2 fuel y).2 :=
    pres_trans hfx.2 hfy.2
  by_cases hxy : rx = ry
  · have hu : union p fuel x y = (find (find p fuel x).2 fuel y).2 := by
      simp [union, hfx.1, hfy.1, hxy]
    rw [hu]
    intro k z r hk hr
    rcases hpres2 k z r hk hr with ⟨m2, hm2, hq, hqr⟩
    refine ⟨m2, by omega, ?_, ?_⟩
    · by_cases hrry : r = ry
      · rw [if_pos hrry, hxy, ← hrry]
        exact hq
      · rw [if_neg hrry]
        exact hq
    · by_cases hrry : r = ry
      · rw [if_pos hrry, hxy, ← hrry]
        exact hqr
      · rw [if_neg hrry]
        exact hqr
  · have hu : union p fuel x y =
        updateF (find (find p fuel x).2 fuel y).2 ry rx := by
      simp [union, hfx.1, hfy.1, hxy]
    rw [hu]
    have hrxp : p rx = rx := hrx.2
    have hryp : p ry = ry := hry.2
    have hrx2 : (find (find p fuel x).2 fuel y).2 rx = rx :=
      (reaches_pres hpres2 ⟨⟨0, Function.iterate_zero_apply p rx⟩, hrxp⟩).2
    have hry2 : (find (find p fuel x).2 fuel y).2 ry = ry :=
      (reaches_pres hpres2 ⟨⟨0, Function.iterate_zero_apply p ry⟩, hryp⟩).2
    have hupd := update_pres (find (find p fuel x).2 fuel y).2 rx ry
      hrx2 hry2 hxy
    intro k z r hk hr
    rcases hpres2 k z r hk hr with ⟨m1, hm1, hq1, hq1r⟩
    rcases hupd m1 z r hq1 hq1r with ⟨m2, hm2, hq2, hq2r⟩
    exact ⟨m2, by omega, hq2, hq2r⟩

theorem totalB_presU {p q : Nat → Nat} {rx ry m : Nat} (hT : TotalB p m)
    (h : PresU p q rx ry) : TotalB q (m + 1) := by
  intro z
  rcases hT z with ⟨k, r, hk, hchain, hroot⟩
  rcases h k z r hchain hroot with ⟨m2, hm2, hq, hqr⟩
  exact ⟨m2, if r = ry then rx else r, by omega, hq, hqr⟩

theorem reaches_presU {p q : Nat → Nat} {rx ry z r : Nat}
    (h : PresU p q rx ry) (hr : Reaches p z r) :
    Reaches q z (if r = ry then rx else r) := by
  obtain ⟨⟨k, hk⟩, hroot⟩ := hr
  rcases h k z r hk hroot with ⟨m, _, hq, hqr⟩
  exact ⟨⟨m, hq⟩, hqr⟩

/-! The closure relation `Conn`. -/

theorem conn_mono {R S : Nat → Nat → Prop} (h : ∀ u v, R u v → S u v)
    {a b : Nat} (hc : Conn R a b) : Conn S a b := by
  induction hc with
  | rel hr => exact Conn.rel (h _ _ hr)
  | refl a => exact Conn.refl a
  | symm _ ih => exact Conn.symm ih
  | trans _ _ ih1 ih2 => exact Conn.trans ih1 ih2

theorem conn_congr {R S : Nat → Nat → Prop} (h : ∀ u v, R u v ↔ S u v)
    (a b : Nat) : Conn R a b ↔ Conn S a b :=
  ⟨conn_mono (fun u v hu => (h u v).mp hu),
   conn_mono (fun u v hu => (h u v).mpr hu)⟩

theorem conn_empty (a b : Nat) :
    Conn (fun _ _ => False) a b ↔ a = b := by
  constructor
  · intro h
    induction h with
    | rel hr => exact absurd hr not_false
    | refl a => rfl
    | symm _ ih => exact ih.symm
    | trans _ _ ih1 ih2 => exact ih1.trans ih2
  · intro h
    rw [h]
    exact Conn.refl b

/-- Adding one pair `(x, y)` to the relation extends its closure exactly by
routes through that pair. -/
theorem conn_addPair (R : Nat → Nat → Prop) (x y a b : Nat) :
    Conn (fun u v => R u v ∨ (u = x ∧ v = y)) a b ↔
      Conn R a b ∨ (Conn R a x ∧ Conn R y b) ∨
        (Conn R a y ∧ Conn R x b) := by
  constructor
  · intro h
    induction h with
    | rel hr =>
        rcases hr with hr | ⟨rfl, rfl⟩
        · exact Or.inl (Conn.rel hr)
        · exact Or.inr (Or.inl ⟨Conn.refl _, Conn.refl _⟩)
    | refl a => exact Or.inl (Conn.refl a)
    | symm _ ih =>
        rcases ih with h1 | ⟨h1, h2⟩ | ⟨h1, h2⟩
        · exact Or.inl h1.symm
        · exact Or.inr (Or.inr ⟨h2.symm, h1.symm⟩)
        · exact Or.inr (Or.inl ⟨h2.symm, h1.symm⟩)
    | trans _ _ ih1 ih2 =>
        rcases ih1 with c1 | ⟨c1, c2⟩ | ⟨c1, c2⟩ <;>
          rcases ih2 with d1 | ⟨d1, d2⟩ | ⟨d1, d2⟩
        · exact Or.inl (c1.trans d1)
        · exact Or.inr (Or.inl ⟨c1.trans d1, d2⟩)
        · exact Or.inr (Or.inr ⟨c1.trans d1, d2⟩)
        · exact Or.inr (Or.inl ⟨c1, c2.trans d1⟩)
        · exact Or.inl (c1.trans (d1.symm.trans (c2.symm.trans d2)))
        · exact Or.inl (c1.trans d2)
        · exact Or.inr (Or.inr ⟨c1, c2.trans d1⟩)
        · exact Or.inl (c1.trans d2)
        · exact Or.inl (c1.trans (d1.symm.trans (c2.symm.trans d2)))
  · intro h
    have hmono : ∀ u v, Conn R u v →
        Conn (fun u v => R u v ∨ (u = x ∧ v = y)) u v :=
      fun u v => conn_mono (fun _ _ hr => Or.inl hr)
    have hpair : Conn (fun u v => R u v ∨ (u = x ∧ v = y)) x y :=
      Conn.rel (Or.inr ⟨rfl, rfl⟩)
    rcases h with h1 | ⟨h1, h2⟩ | ⟨h1, h2⟩
    · exact hmono _ _ h1
    · exact ((hmono _ _ h1).trans hpair).trans (hmono _ _ h2)
    · exact ((hmono _ _ h1).trans hpair.symm).trans (hmono _ _ h2)

theorem sameRoot_iff_root_eq {p : Nat → Nat} {a b ra rb : Nat}
    (ha : Reaches p a ra) (hb : Reaches p b rb) :
    SameRoot p a b ↔ ra = rb := by
  constructor
  · intro h
    obtain ⟨r, hr1, hr2⟩ := h
    exact (reaches_unique ha hr1).trans (reaches_unique hb hr2).symm
  · intro h
    exact ⟨ra, ha, by rw [h]; exact hb⟩

/-- One union step turns the root partition of `p` into the closure of `R`
extended by the new pair. -/
theorem union_invariant (p : Nat → Nat) (fuel x y m : Nat)
    (R : Nat → Nat → Prop) (hT : TotalB p m) (hfuel : m ≤ fuel)
    (hInv : ∀ a b, SameRoot p a b ↔ Conn R a b) :
    ∀ a b, SameRoot (union p fuel x y) a b ↔
      Conn (fun u v => R u v ∨ (u = x ∧ v = y)) a b := by
  obtain ⟨kx, rx, hkx, hxchain, hxroot⟩ := hT x
  obtain ⟨ky, ry, hky, hychain, hyroot⟩ := hT y
  have hrx : Reaches p x rx := ⟨⟨kx, hxchain⟩, hxroot⟩
  have hry : Reaches p y ry := ⟨⟨ky, hychain⟩, hyroot⟩
  have hU := union_spec p fuel x y m hT hfuel rx ry hrx hry
  intro a b
  obtain ⟨ka, ra, hka, hachain, haroot⟩ := hT a
  obtain ⟨kb, rb, hkb, hbchain, hbroot⟩ := hT b
  have hra : Reaches p a ra := ⟨⟨ka, hachain⟩, haroot⟩
  have hrb : Reaches p b rb := ⟨⟨kb, hbchain⟩, hbroot⟩
  have hqa := reaches_presU hU hra
  have hqb := reaches_presU hU hrb
  rw [sameRoot_iff_root_eq hqa hqb, conn_addPair]
  have e1 : Conn R a b ↔ ra = rb :=
    (hInv a b).symm.trans (sameRoot_iff_root_eq hra hrb)
  have e2 : Conn R a x ↔ ra = rx :=
    (hInv a x).symm.trans (sameRoot_iff_root_eq hra hrx)
  have e3 : Conn R y b ↔ ry = rb :=
    (hInv y b).symm.trans (sameRoot_iff_root_eq hry hrb)
  have e4 : Conn R a y ↔ ra = ry :=
    (hInv a y).symm.trans (sameRoot_iff_root_eq hra hry)
  have e5 : Conn R x b ↔ rx = rb :=
    (hInv x b).symm.trans (sameRoot_iff_root_eq hrx hrb)
  rw [e1, e2, e3, e4, e5]
  by_cases h1 : ra = ry <;> by_cases h2 : rb = ry <;>
    simp [h1, h2] <;> omega

/-- Folding the accepted pairs through `union` computes exactly the
connectivity closure of those pairs, with chain lengths bounded by the
number of unions. -/
theorem unionFold_spec : ∀ (l : List (Nat × Nat)) (p : Nat → Nat)
    (m fuel : Nat) (R : Nat → Nat → Prop),
    TotalB p m → m + l.length ≤ fuel →
    (∀ a b, SameRoot p a b ↔ Conn R a b) →
    TotalB (unionFold fuel l p) (m + l.length) ∧
    (∀ a b, SameRoot (unionFold fuel l p) a b ↔
      Conn (fun u v => R u v ∨ (u, v) ∈ l) a b) := by
  intro l
  induction l with
  | nil =>
      intro p m fuel R hT hfuel hInv
      refine ⟨by simpa [unionFold] using hT, ?_⟩
      intro a b
      rw [show unionFold fuel [] p = p from rfl, hInv a b]
      exact conn_congr (by simp) a b
  | cons xy rest ih =>
      intro p m fuel R hT hfuel hInv
      have hm : m ≤ fuel := by
        simp only [List.length_cons] at hfuel
        omega
      obtain ⟨kx, rx, hkx, hxchain, hxroot⟩ := hT xy.1
      obtain ⟨ky, ry, hky, hychain, hyroot⟩ := hT xy.2
      have hU := union_spec p fuel xy.1 xy.2 m hT hm rx ry
        ⟨⟨kx, hxchain⟩, hxroot⟩ ⟨⟨ky, hychain⟩, hyroot⟩
      have hT1 : TotalB (union p fuel xy.1 xy.2) (m + 1) :=
        totalB_presU hT hU
      have hInv1 := union_invariant p fuel xy.1 xy.2 m R hT hm hInv
      have hrec := ih (union p fuel xy.1 xy.2) (m + 1) fuel
        (fun u v => R u v ∨ (u = xy.1 ∧ v = xy.2)) hT1
        (by simp only [List.length_cons] at hfuel; omega) hInv1
      have hfold : unionFold fuel (xy :: rest) p =
          unionFold fuel rest (union p fuel xy.1 xy.2) := rfl
      constructor
      · rw [hfold]
        have hlen : m + (xy :: rest).length = (m + 1) + rest.length := by
          simp only [List.length_cons]
          omega
        rw [hlen]
        exact hrec.1
      · intro a b
        rw [hfold, hrec.2 a b]
        refine conn_congr ?_ a b
        intro u v
        simp only [List.mem_cons, Prod.ext_iff]
        constructor
        · intro h
          rcases h with (h | ⟨h1, h2⟩) | h
          · exact Or.inl h
          · exact Or.inr (Or.inl ⟨h1, h2⟩)
          · exact Or.inr (Or.inr h)
        · intro h
          rcases h with h | ⟨h1, h2⟩ | h
          · exact Or.inl (Or.inl h)
          · exact Or.inl (Or.inr ⟨h1, h2⟩)
          · exact Or.inr h

/-! Group-id assignment: roots are stable across the threaded finds, and
the root-to-group table is injective. -/

theorem assignGroups_eq_fold (fuel : Nat) (cand : List Nat)
    (parent : Nat → Nat) :
    assignGroups fuel cand parent =
      cand.foldl (assignStep fuel) (parent, [], 1) := rfl

theorem stampGroups_eq_fold (fuel : Nat) (rtg : List (Nat × Int))
    (parent : Nat → Nat) (pairs : List DuplicatePair) :
    stampGroups fuel rtg parent pairs =
      pairs.foldl (stampStep fuel rtg) (parent, []) := rfl

theorem lookup_append_some {l1 l2 : List (Nat × Int)} {k : Nat} {v : Int}
    (h : l1.lookup k = some v) : (l1 ++ l2).lookup k = some v := by
  induction l1 with
  | nil => simp [List.lookup] at h
  | cons hd tl ih =>
      obtain ⟨a0, b0⟩ := hd
      by_cases hbeq : (k == a0) = true
      · simp only [List.lookup, hbeq] at h ⊢
        exact h
      · rw [Bool.not_eq_true] at hbeq
        simp only [List.cons_append, List.lookup, hbeq] at h ⊢
        exact ih h

theorem lookup_append_none {l1 l2 : List (Nat × Int)} {k : Nat}
    (h : l1.lookup k = none) : (l1 ++ l2).lookup k = l2.lookup k := by
  induction l1 with
  | nil => simp
  | cons hd tl ih =>
      obtain ⟨a0, b0⟩ := hd
      by_cases hbeq : (k == a0) = true
      · simp only [List.lookup, hbeq] at h
        exact absurd h (by simp)
      · rw [Bool.not_eq_true] at hbeq
        simp only [List.lookup, hbeq] at h
        simp only [List.cons_append, List.lookup, hbeq]
        exact ih h

theorem lookup_mem {l : List (Nat × Int)} {k : Nat} {v : Int}
    (h : l.lookup k = some v) : (k, v) ∈ l := by
  induction l with
  | nil => simp [List.lookup] at h
  | cons hd tl ih =>
      obtain ⟨a0, b0⟩ := hd
      by_cases hbeq : (k == a0) = true
      · simp only [List.lookup, hbeq] at h
        have hk : k = a0 := by simpa using hbeq
        have hv : b0 = v := by simpa using h
        rw [hk, ← hv]
        exact List.mem_cons_self _ _
      · rw [Bool.not_eq_true] at hbeq
        simp only [List.lookup, hbeq] at h
        exact List.mem_cons_of_mem _ (ih h)

theorem values_inj {L : List (Nat × Int)}
    (hpw : List.Pairwise (fun e1 e2 : Nat × Int => e1.2 < e2.2) L)
    {r1 r2 : Nat} {g : Int} (h1 : (r1, g) ∈ L) (h2 : (r2, g) ∈ L) :
    r1 = r2 := by
  induction L with
  | nil => cases h1
  | cons hd tl ih =>
      rw [List.pairwise_cons] at hpw
      rcases List.mem_cons.mp h1 with he1 | ht1
      · rcases List.mem_cons.mp h2 with he2 | ht2
        · have := he1.trans he2.symm
          exact (Prod.mk.injEq r1 g r2 g).mp this |>.1
        · exfalso
          have hlt := hpw.1 (r2, g) ht2
          rw [← he1] at hlt
          exact lt_irrefl g hlt
      · rcases List.mem_cons.mp h2 with he2 | ht2
        · exfalso
          have hlt := hpw.1 (r1, g) ht1
          rw [← he2] at hlt
          exact lt_irrefl g hlt
        · exact ih hpw.2 ht1 ht2

theorem rootAt_reaches {p : Nat → Nat} {M fuel : Nat} (hT : TotalB p M)
    (hMf : M ≤ fuel) (z : Nat) : Reaches p z (rootAt p fuel z) := by
  obtain ⟨k, r, hk, hchain, hroot⟩ := hT z
  have hf := (find_spec fuel p z k r hchain hroot (le_trans hk hMf)).1
  rw [rootAt, hf]
  exact ⟨⟨k, hchain⟩, hroot⟩

/-- A find made on any later, chain-preserved parent map returns the root
the original map assigns, and keeps preserving chains. -/
theorem find_root_stable {p0 par : Nat → Nat} {M fuel : Nat}
    (hT0 : TotalB p0 M) (hTpar : TotalB par M) (hpres : Pres p0 par)
    (hMf : M ≤ fuel) (z : Nat) :
    (find par fuel z).1 = rootAt p0 fuel z ∧
    Pres p0 (find par fuel z).2 ∧ TotalB (find par fuel z).2 M := by
  obtain ⟨k, r, hk, hchain, hroot⟩ := hTpar z
  have hf := find_spec fuel par z k r hchain hroot (le_trans hk hMf)
  have hr0 : Reaches p0 z (rootAt p0 fuel z) := rootAt_reaches hT0 hMf z
  have hrpar : Reaches par z (rootAt p0 fuel z) := reaches_pres hpres hr0
  have hre : r = rootAt p0 fuel z :=
    reaches_unique ⟨⟨k, hchain⟩, hroot⟩ hrpar
  exact ⟨by rw [hf.1, hre], pres_trans hpres hf.2, totalB_pres hTpar hf.2⟩

theorem totalB_id : TotalB (fun x => x) 0 := by
  intro z
  exact ⟨0, z, le_refl 0, rfl, rfl⟩

theorem sameRoot_id (a b : Nat) : SameRoot (fun x => x) a b ↔ a = b := by
  constructor
  · intro h
    obtain ⟨r, ⟨⟨k1, hk1⟩, _⟩, ⟨⟨k2, hk2⟩, _⟩⟩ := h
    have h1 : (fun x : Nat => x)^[k1] a = a :=
      Function.iterate_fixed rfl k1
    have h2 : (fun x : Nat => x)^[k2] b = b :=
      Function.iterate_fixed rfl k2
    rw [h1] at hk1
    rw [h2] at hk2
    rw [hk1, hk2]
  · intro h
    refine ⟨a, ⟨⟨0, rfl⟩, rfl⟩, ⟨⟨0, ?_⟩, rfl⟩⟩
    rw [h]
    exact Function.iterate_fixed rfl 0

theorem accepted_le_fuel (score : String → String → Nat) (df : DataFrame)
    (sc : Option (List String)) (t : Int) (bs mn mp : Nat) :
    (acceptedPairs score df sc t bs mn mp).length ≤
      ufFuel df (resolvedSubset df sc) mn bs mp :=
  List.length_filter_le _ _

/-- After all unions the parent map realizes exactly the connectivity
closure of the accepted pairs, with chains bounded by their number. -/
theorem finalParent_spec (score : String → String → Nat) (df : DataFrame)
    (sc : Option (List String)) (t : Int) (bs mn mp : Nat) :
    TotalB (finalParent score df sc t bs mn mp)
      (acceptedPairs score df sc t bs mn mp).length ∧
    (∀ a b, SameRoot (finalParent score df sc t bs mn mp) a b ↔
      Conn (fun u v => (u, v) ∈ acceptedPairs score df sc t bs mn mp) a b) := by
  have h := unionFold_spec (acceptedPairs score df sc t bs mn mp)
    (fun x => x) 0 (ufFuel df (resolvedSubset df sc) mn bs mp)
    (fun _ _ => False) totalB_id
    (by simpa using accepted_le_fuel score df sc t bs mn mp)
    (fun a b => (sameRoot_id a b).trans (conn_empty a b).symm)
  constructor
  · simpa [finalParent] using h.1
  · intro a b
    have h2 := h.2 a b
    rw [show finalParent score df sc t bs mn mp =
      unionFold (ufFuel df (resolvedSubset df sc) mn bs mp)
        (acceptedPairs score df sc t bs mn mp) (fun x => x) from rfl]
    rw [h2]
    exact conn_congr (by simp) a b

/-- Invariants of the group-assignment fold: chains stay preserved, the
table values stay strictly increasing (hence distinct), existing entries
survive, and every processed id's root gets an entry. -/
theorem assignGroups_go (fuel M : Nat) (p0 : Nat → Nat) (hT0 : TotalB p0 M)
    (hMf : M ≤ fuel) :
    ∀ (cand : List Nat) (par : Nat → Nat) (rtg : List (Nat × Int))
      (next : Int),
      Pres p0 par → TotalB par M →
      (∀ e ∈ rtg, e.2 < next) →
      List.Pairwise (fun e1 e2 : Nat × Int => e1.2 < e2.2) rtg →
      Pres p0 (cand.foldl (assignStep fuel) (par, rtg, next)).1 ∧
      TotalB (cand.foldl (assignStep fuel) (par, rtg, next)).1 M ∧
      (∀ e ∈ (cand.foldl (assignStep fuel) (par, rtg, next)).2.1,
        e.2 < (cand.foldl (assignStep fuel) (par, rtg, next)).2.2) ∧
      List.Pairwise (fun e1 e2 : Nat × Int => e1.2 < e2.2)
        (cand.foldl (assignStep fuel) (par, rtg, next)).2.1 ∧
      (∀ r g, rtg.lookup r = some g →
        ((cand.foldl (assignStep fuel) (par, rtg, next)).2.1).lookup r =
          some g) ∧
      (∀ i ∈ cand,
        (((cand.foldl (assignStep fuel) (par, rtg, next)).2.1).lookup
          (rootAt p0 fuel i)).isSome = true) := by
  intro cand
  induction cand with
  | nil =>
      intro par rtg next hpres hTpar hbound hpw
      refine ⟨hpres, hTpar, hbound, hpw, fun r g h => h, ?_⟩
      intro i hi
      exact absurd hi (List.not_mem_nil i)
  | cons idx rest ih =>
      intro par rtg next hpres hTpar hbound hpw
      rw [List.foldl_cons]
      obtain ⟨hroot_eq, hpres2, hTpar2⟩ :=
        find_root_stable hT0 hTpar hpres hMf idx
      by_cases hlk : (rtg.lookup (find par fuel idx).1).isSome = true
      · have hstep : assignStep fuel (par, rtg, next) idx =
            ((find par fuel idx).2, rtg, next) := by
          simp [assignStep, hlk]
        rw [hstep]
        have hrec := ih (find par fuel idx).2 rtg next hpres2 hTpar2
          hbound hpw
        refine ⟨hrec.1, hrec.2.1, hrec.2.2.1, hrec.2.2.2.1,
          hrec.2.2.2.2.1, ?_⟩
        intro i hi
        rcases List.mem_cons.mp hi with hx | hit
        · rw [hx]
          rcases Option.isSome_iff_exists.mp hlk with ⟨g, hg⟩
          rw [hroot_eq] at hg
          have := hrec.2.2.2.2.1 _ _ hg
          simp [this]
        · exact hrec.2.2.2.2.2 i hit
      · have hstep : assignStep fuel (par, rtg, next) idx =
            ((find par fuel idx).2,
              rtg ++ [((find par fuel idx).1, next)], next + 1) := by
          simp [assignStep, hlk]
        rw [hstep]
        have hbound2 : ∀ e ∈ rtg ++ [((find par fuel idx).1, next)],
            e.2 < next + 1 := by
          intro e he
          rcases List.mem_append.mp he with he | he
          · have := hbound e he
            omega
          · rcases List.mem_singleton.mp he with rfl
            simp
        have hpw2 : List.Pairwise (fun e1 e2 : Nat × Int => e1.2 < e2.2)
            (rtg ++ [((find par fuel idx).1, next)]) := by
          rw [List.pairwise_append]
          refine ⟨hpw, List.pairwise_singleton _ _, ?_⟩
          intro e1 he1 e2 he2
          rcases List.mem_singleton.mp he2 with rfl
          exact hbound e1 he1
        have hrec := ih (find par fuel idx).2
          (rtg ++ [((find par fuel idx).1, next)]) (next + 1) hpres2 hTpar2
          hbound2 hpw2
        refine ⟨hrec.1, hrec.2.1, hrec.2.2.1, hrec.2.2.2.1, ?_, ?_⟩
        · intro r g hg
          exact hrec.2.2.2.2.1 r g (lookup_append_some hg)
        · intro i hi
          rcases List.mem_cons.mp hi with hx | hit
          · rw [hx]
            have hnone : rtg.lookup ((find par fuel idx).1) = none :=
              Option.not_isSome_iff_eq_none.mp hlk
            have hsome : (rtg ++
                [((find par fuel idx).1, next)]).lookup
                ((find par fuel idx).1) = some next := by
              rw [lookup_append_none hnone]
              simp [List.lookup]
            nth_rewrite 1 [hroot_eq] at hsome
            have := hrec.2.2.2.2.1 _ _ hsome
            simp [this]
          · exact hrec.2.2.2.2.2 i hit

/-- The stamping fold rewrites each pair's `group_id` to the group of the
root of its left endpoint, as resolved by the parent map that entered the
phase. -/
theorem stampGroups_go (fuel M : Nat) (rtg : List (Nat × Int))
    (p0 : Nat → Nat) (hT0 : TotalB p0 M) (hMf : M ≤ fuel) :
    ∀ (pairs : List DuplicatePair) (par : Nat → Nat)
      (acc : List DuplicatePair),
      Pres p0 par → TotalB par M →
      (pairs.foldl (stampStep fuel rtg) (par, acc)).2 =
        acc ++ pairs.map (fun p =>
          { p with group_id :=
              (rtg.lookup (rootAt p0 fuel p.left_index)).getD 0 }) := by
  intro pairs
  induction pairs with
  | nil => intro par acc _ _; simp
  | cons p rest ih =>
      intro par acc hpres hTpar
      rw [List.foldl_cons]
      obtain ⟨hroot_eq, hpres2, hTpar2⟩ :=
        find_root_stable hT0 hTpar hpres hMf p.left_index
      have hstep : stampStep fuel rtg (par, acc) p =
          ((find par fuel p.left_index).2, acc ++
            [{ p with group_id :=
                (rtg.lookup (rootAt p0 fuel p.left_index)).getD 0 }]) := by
        simp [stampStep, hroot_eq]
      rw [hstep, ih (find par fuel p.left_index).2 _ hpres2 hTpar2]
      simp

theorem stampedPairs_group (score : String → String → Nat) (df : DataFrame)
    (sc : Option (List String)) (t : Int) (bs mn mp : Nat) :
    stampedPairs score df sc t bs mn mp =
      (rawPairs score df sc t bs mn mp).map (fun p =>
        { p with group_id :=
            (((groupAssign score df sc t bs mn mp).2.1).lookup
              (rootAt (finalParent score df sc t bs mn mp)
                (ufFuel df (resolvedSubset df sc) mn bs mp)
                p.left_index)).getD 0 }) := by
  have hT0 := (finalParent_spec score df sc t bs mn mp).1
  have hMf := accepted_le_fuel score df sc t bs mn mp
  have hAG := assignGroups_go (ufFuel df (resolvedSubset df sc) mn bs mp)
    (acceptedPairs score df sc t bs mn mp).length
    (finalParent score df sc t bs mn mp) hT0 hMf
    (validCandidates df (resolvedSubset df sc) mn)
    (finalParent score df sc t bs mn mp) [] 1 (pres_refl _) hT0
    (by intro e he; cases he) List.Pairwise.nil
  have hs := stampGroups_go (ufFuel df (resolvedSubset df sc) mn bs mp)
    (acceptedPairs score df sc t bs mn mp).length
    ((groupAssign score df sc t bs mn mp).2.1)
    (finalParent score df sc t bs mn mp) hT0 hMf
    (rawPairs score df sc t bs mn mp)
    ((groupAssign score df sc t bs mn mp).1) [] hAG.1 hAG.2.1
  simpa [stampedPairs, stampGroups_eq_fold] using hs

theorem groupAssign_rtg_props (score : String → String → Nat)
    (df : DataFrame) (sc : Option (List String)) (t : Int) (bs mn mp : Nat) :
    List.Pairwise (fun e1 e2 : Nat × Int => e1.2 < e2.2)
      ((groupAssign score df sc t bs mn mp).2.1) ∧
    ∀ i ∈ validCandidates df (resolvedSubset df sc) mn,
      (((groupAssign score df sc t bs mn mp).2.1).lookup
        (rootAt (finalParent score df sc t bs mn mp)
          (ufFuel df (resolvedSubset df sc) mn bs mp) i)).isSome = true := by
  have hT0 := (finalParent_spec score df sc t bs mn mp).1
  have hMf := accepted_le_fuel score df sc t bs mn mp
  have hAG := assignGroups_go (ufFuel df (resolvedSubset df sc) mn bs mp)
    (acceptedPairs score df sc t bs mn mp).length
    (finalParent score df sc t bs mn mp) hT0 hMf
    (validCandidates df (resolvedSubset df sc) mn)
    (finalParent score df sc t bs mn mp) [] 1 (pres_refl _) hT0
    (by intro e he; cases he) List.Pairwise.nil
  exact ⟨hAG.2.2.2.1, hAG.2.2.2.2.2⟩

theorem stamped_left_valid (score : String → String → Nat) (df : DataFrame)
    (sc : Option (List String)) (t : Int) (bs mn mp : Nat)
    (p : DuplicatePair) (hp : p ∈ stampedPairs score df sc t bs mn mp) :
    p.left_index ∈ validCandidates df (resolvedSubset df sc) mn := by
  rcases stamped_to_accepted score df sc t bs mn mp p hp with ⟨pr, hpr, hL, _⟩
  rcases accepted_in_block score df sc t bs mn mp pr hpr
    with ⟨e, he, _, _, hm1, _, _⟩
  rw [hL]
  exact blocksOf_mem_valid df (resolvedSubset df sc) mn bs e he pr.1 hm1

/-- The stamped group id records exactly the class of the left endpoint:
two stamped pairs share a group id iff their left endpoints are connected
by a chain of accepted pairs. -/
theorem stamped_group_eq_iff (score : String → String → Nat)
    (df : DataFrame) (sc : Option (List String)) (t : Int) (bs mn mp : Nat)
    (p q : DuplicatePair) (hp : p ∈ stampedPairs score df sc t bs mn mp)
    (hq : q ∈ stampedPairs score df sc t bs mn mp) :
    p.group_id = q.group_id ↔
      Conn (fun u v => (u, v) ∈ acceptedPairs score df sc t bs mn mp)
        p.left_index q.left_index := by
  have hT0 := (finalParent_spec score df sc t bs mn mp).1
  have hSR := (finalParent_spec score df sc t bs mn mp).2
  have hMf := accepted_le_fuel score df sc t bs mn mp
  have hprops := groupAssign_rtg_props score df sc t bs mn mp
  have hgroup : ∀ u : DuplicatePair,
      u ∈ stampedPairs score df sc t bs mn mp →
      u.group_id = (((groupAssign score df sc t bs mn mp).2.1).lookup
        (rootAt (finalParent score df sc t bs mn mp)
          (ufFuel df (resolvedSubset df sc) mn bs mp)
          u.left_index)).getD 0 := by
    intro u hu
    rw [stampedPairs_group score df sc t bs mn mp] at hu
    rcases List.mem_map.mp hu with ⟨u0, hu0, he⟩
    have hL : u.left_index = u0.left_index := by rw [← he]
    have hG : u.group_id =
        (((groupAssign score df sc t bs mn mp).2.1).lookup
          (rootAt (finalParent score df sc t bs mn mp)
            (ufFuel df (resolvedSubset df sc) mn bs mp)
            u0.left_index)).getD 0 := by rw [← he]
    rw [hG, hL]
  rcases Option.isSome_iff_exists.mp (hprops.2 p.left_index
    (stamped_left_valid score df sc t bs mn mp p hp)) with ⟨gp, hgp⟩
  rcases Option.isSome_iff_exists.mp (hprops.2 q.left_index
    (stamped_left_valid score df sc t bs mn mp q hq)) with ⟨gq, hgq⟩
  rw [hgroup p hp, hgroup q hq, hgp, hgq]
  simp only [Option.getD_some]
  have hreach_p := rootAt_reaches hT0 hMf p.left_index
  have hreach_q := rootAt_reaches hT0 hMf q.left_index
  constructor
  · intro he
    rw [he] at hgp
    have hmem_p := lookup_mem hgp
    have hmem_q := lookup_mem hgq
    have hroots := values_inj hprops.1 hmem_p hmem_q
    refine (hSR p.left_index q.left_index).mp ?_
    exact (sameRoot_iff_root_eq hreach_p hreach_q).mpr hroots
  · intro hc
    have hsr := (hSR p.left_index q.left_index).mpr hc
    have hroots := (sameRoot_iff_root_eq hreach_p hreach_q).mp hsr
    rw [hroots] at hgp
    rw [hgp] at hgq
    injection hgq

/-- C3: two pairs-table rows carry the same group id exactly when their
rows are connected by a chain of accepted pairs (the transitive closure of
the pair relation recorded in the table); in particular two adjacent
accepted pairs (a,b) and (b,c) always share one group id, whatever
score(a,c) may be. -/
theorem C3_transitive_grouping (score : String → String → Nat)
    (df : DataFrame) (sc : Option (List String)) (t : Int) (bs mn mp : Nat)
    (mask : List Bool) (tbl : PairsTable)
    (h : find_duplicates_advanced score df sc t bs mn mp = .ok (mask, tbl)) :
    (∀ r1 ∈ tbl.rows, ∀ r2 ∈ tbl.rows,
      (r1.group_id = r2.group_id ↔
        Conn (fun a b => ∃ r ∈ tbl.rows,
          r.left_index = a ∧ r.right_index = b)
          r1.left_index r2.left_index)) ∧
    (∀ r1 ∈ tbl.rows, ∀ r2 ∈ tbl.rows,
      r1.right_index = r2.left_index → r1.group_id = r2.group_id) := by
  have hmiss := missing_nil_of_ok score df sc t bs mn mp _ h
  rcases result_cases score df sc t bs mn mp hmiss with ⟨hA, heq⟩ | ⟨hA, heq⟩
  · rw [heq] at h
    injection h with h1
    injection h1 with h2 h3
    subst h2 h3
    constructor
    · intro r1 hr1
      exact absurd hr1 (List.not_mem_nil r1)
    · intro r1 hr1
      exact absurd hr1 (List.not_mem_nil r1)
  · rw [heq] at h
    injection h with h1
    injection h1 with h2 h3
    subst h2 h3
    have hrel : ∀ a b,
        ((a, b) ∈ acceptedPairs score df sc t bs mn mp) ↔
        (∃ r ∈ insertionSort pairsLe
            ((stampedPairs score df sc t bs mn mp).map
              (toPairsRow df (resolvedSubset df sc))),
          r.left_index = a ∧ r.right_index = b) := by
      intro a b
      constructor
      · intro hab
        rcases accepted_to_stamped score df sc t bs mn mp (a, b) hab
          with ⟨p, hpm, hL, hR⟩
        exact ⟨toPairsRow df (resolvedSubset df sc) p,
          (mem_rows_iff df (resolvedSubset df sc) _ _).mpr ⟨p, hpm, rfl⟩,
          hL, hR⟩
      · intro hx
        rcases hx with ⟨r, hr, hra, hrb⟩
        rcases (mem_rows_iff df (resolvedSubset df sc) _ r).mp hr
          with ⟨p, hpm, rfl⟩
        rcases stamped_to_accepted score df sc t bs mn mp p hpm
          with ⟨pr, hpr, hL, hR⟩
        have ha : pr.1 = a := by
          rw [← hL]
          exact hra
        have hb : pr.2 = b := by
          rw [← hR]
          exact hrb
        have hpre : pr = (a, b) := by
          rw [← ha, ← hb]
        rw [← hpre]
        exact hpr
    constructor
    · intro r1 hr1 r2 hr2
      rcases (mem_rows_iff df (resolvedSubset df sc) _ r1).mp hr1
        with ⟨p1, hp1, rfl⟩
      rcases (mem_rows_iff df (resolvedSubset df sc) _ r2).mp hr2
        with ⟨p2, hp2, rfl⟩
      exact (stamped_group_eq_iff score df sc t bs mn mp p1 p2 hp1 hp2).trans
        (conn_congr (fun u v => hrel u v) p1.left_index p2.left_index)
    · intro r1 hr1 r2 hr2 hbc
      rcases (mem_rows_iff df (resolvedSubset df sc) _ r1).mp hr1
        with ⟨p1, hp1, rfl⟩
      rcases (mem_rows_iff df (resolvedSubset df sc) _ r2).mp hr2
        with ⟨p2, hp2, rfl⟩
      refine (stamped_group_eq_iff score df sc t bs mn mp p1 p2 hp1 hp2).mpr ?_
      rcases stamped_to_accepted score df sc t bs mn mp p1 hp1
        with ⟨pr, hpr, hL, hR⟩
      have hmem : (p1.left_index, p1.right_index) ∈
          acceptedPairs score df sc t bs mn mp := by
        rw [hL, hR]
        exact hpr
      have h1 : Conn (fun u v =>
          (u, v) ∈ acceptedPairs score df sc t bs mn mp)
          p1.left_index p1.right_index := Conn.rel hmem
      have hbc2 : p1.right_index = p2.left_index := hbc
      rw [hbc2] at h1
      exact h1

/-- C3 witness: the chain run `dfChain` in which rows 0-1 and 1-2 are
accepted pairs but 0-2 is not; all rows share group 1. -/
theorem C3_transitive_grouping_witness :
    (∀ r1 ∈ (⟨pairsCols,
        [⟨1, 0, 1, 95, "ab x", "ab y"⟩, ⟨1, 1, 2, 95, "ab y", "ab z"⟩]⟩ :
          PairsTable).rows,
      ∀ r2 ∈ (⟨pairsCols,
        [⟨1, 0, 1, 95, "ab x", "ab y"⟩, ⟨1, 1, 2, 95, "ab y", "ab z"⟩]⟩ :
          PairsTable).rows,
      (r1.group_id = r2.group_id ↔
        Conn (fun a b => ∃ r ∈ (⟨pairsCols,
          [⟨1, 0, 1, 95, "ab x", "ab y"⟩, ⟨1, 1, 2, 95, "ab y", "ab z"⟩]⟩ :
            PairsTable).rows,
          r.left_index = a ∧ r.right_index = b)
          r1.left_index r2.left_index)) ∧
    (∀ r1 ∈ (⟨pairsCols,
        [⟨1, 0, 1, 95, "ab x", "ab y"⟩, ⟨1, 1, 2, 95, "ab y", "ab z"⟩]⟩ :
          PairsTable).rows,
      ∀ r2 ∈ (⟨pairsCols,
        [⟨1, 0, 1, 95, "ab x", "ab y"⟩, ⟨1, 1, 2, 95, "ab y", "ab z"⟩]⟩ :
          PairsTable).rows,
      r1.right_index = r2.left_index → r1.group_id = r2.group_id) :=
  C3_transitive_grouping scoreChain dfChain (some ["k"]) 90 2 1 50000
    [true, true, true]
    ⟨pairsCols,
      [⟨1, 0, 1, 95, "ab x", "ab y"⟩, ⟨1, 1, 2, 95, "ab y", "ab z"⟩]⟩
    (by rfl)

end DQTool
